import Mathlib

/-!
Granite `Util::IntrusiveHashMap` — shallow embedding and verified properties

Source: `src/util/intrusive_hash_map.hpp`.

Modelling decisions.

* A stored object `T*` is an `Elem`: its address `ptr` together with the
  `intrusive_hashmap_key` it carries.  Pointer equality is equality of `Elem`s; an
  element handed to an insert operation is *fresh* when its address is not used by any
  element currently referenced from the slot array or the list.
* `std::vector<T *> values` is a `List (Option Elem)` (`none` is `nullptr`).  An index
  outside the vector is undefined behaviour in C++; here it reads as `none`.  In every
  reachable state all indices that the code computes are in range (`Inv.start_lt`).
* `Hash` is `uint64_t`, `size_t` and `unsigned` are machine integers.  They are modelled
  by `Nat`: `&` is `Nat.land`, which agrees with the machine operation on every value,
  and the only arithmetic performed on them is `+ 1`, `* 2` and a guarded `- 1`, none of
  which can wrap before the slot array exceeds the address space.
* A loop that may run forever (`insert_inner`, the grow-and-retry recursion of the two
  inserts) returns `Option`; `none` stands for a run that does not return.
* `assert` is modelled as in a build with assertions enabled: an operation whose
  assertion fails returns `none` and yields no successor state.
* `ThreadSafeIntrusiveHashMap` brackets each call of the owning map with a lock of
  `RWSpinLock`.  A lock has no meaning in a single thread of control, so the wrapper is
  not modelled; its member functions compute what the owning map computes.
-/

namespace Util

/-- An object stored in the map: `ptr` is its address, `key` the value of the
`intrusive_hashmap_key` field of `IntrusiveHashMapEnabled<T>`. -/
structure Elem where
  ptr : Nat
  key : Nat
deriving DecidableEq

/-- Modelled from the spec: `IntrusiveList<T>` (`intrusive_list.hpp` is not among the
sources).  The list threads the stored elements, most recently inserted first. -/
abbrev IntrusiveList := List Elem

/-- Modelled from the spec: `IntrusiveList::insert_front`. -/
def IntrusiveList.insert_front (l : IntrusiveList) (e : Elem) : IntrusiveList := e :: l

/-- Modelled from the spec: `IntrusiveList::erase`, which unlinks an element that is
currently in the list. -/
def IntrusiveList.erase_node (l : IntrusiveList) (e : Elem) : IntrusiveList := List.erase l e

/-- The data members of `IntrusiveHashMapHolder<T>`. -/
structure IntrusiveHashMapHolder where
  values : List (Option Elem)
  list : IntrusiveList
  hash_mask : Nat
  count : Nat
  load_count : Nat
deriving DecidableEq

namespace IntrusiveHashMapHolder

/-- The default-constructed holder. -/
def empty : IntrusiveHashMapHolder :=
  { values := [], list := [], hash_mask := 0, count := 0, load_count := 0 }

/-- `InitialSize`. -/
def InitialSize : Nat := 16

/-- `InitialLoadCount`. -/
def InitialLoadCount : Nat := 4

/-- `values[masked]`. -/
def slot (values : List (Option Elem)) (masked : Nat) : Option Elem :=
  values.getD masked none

/-- The `for` loop of `find`: the first argument is the number of iterations left,
the second the current `masked`. -/
def find_loop (values : List (Option Elem)) (hash_mask hash : Nat) : Nat → Nat → Option Elem
  | 0, _ => none
  | n + 1, masked =>
    match slot values masked with
    | some v =>
      if v.key = hash then some v
      else find_loop values hash_mask hash n ((masked + 1) &&& hash_mask)
    | none => find_loop values hash_mask hash n ((masked + 1) &&& hash_mask)

/-- `IntrusiveHashMapHolder::find`. -/
def find (s : IntrusiveHashMapHolder) (hash : Nat) : Option Elem :=
  if s.values.isEmpty then none
  else find_loop s.values s.hash_mask hash s.load_count (hash &&& s.hash_mask)

/-- The `while` loop of `insert_inner`: the index of the first empty slot met from
`masked` on.  The first argument bounds the number of slots examined. -/
def insert_inner_loop (values : List (Option Elem)) (hash_mask : Nat) : Nat → Nat → Option Nat
  | 0, _ => none
  | n + 1, masked =>
    match slot values masked with
    | some _ => insert_inner_loop values hash_mask n ((masked + 1) &&& hash_mask)
    | none => some masked

/-- `IntrusiveHashMapHolder::insert_inner`.  The probe has no window limit.  Successive
values of `masked` are determined by the previous one and never exceed `hash_mask`, so a
probe that met no empty slot in `values.length` steps (with `hash_mask < values.length`)
has revisited a slot and never ends: that is `none`. -/
def insert_inner (values : List (Option Elem)) (hash_mask : Nat) (value : Elem) :
    Option (List (Option Elem)) :=
  match insert_inner_loop values hash_mask values.length (value.key &&& hash_mask) with
  | some masked => some (values.set masked (some value))
  | none => none

/-- The re-insertion loop of `grow`: `insert_inner` for each element of the list, in
list order. -/
def reinsert (hash_mask : Nat) : List Elem → List (Option Elem) → Option (List (Option Elem))
  | [], values => some values
  | t :: rest, values =>
    match insert_inner values hash_mask t with
    | some values1 => reinsert hash_mask rest values1
    | none => none

/-- `IntrusiveHashMapHolder::grow`. -/
def grow (s : IntrusiveHashMapHolder) : Option IntrusiveHashMapHolder :=
  let size := if s.values.isEmpty then InitialSize else s.values.length * 2
  let load_count1 := if s.values.isEmpty then InitialLoadCount else s.load_count + 1
  let hash_mask1 := size - 1
  match reinsert hash_mask1 s.list (List.replicate size none) with
  | some values1 =>
    some { s with values := values1, hash_mask := hash_mask1, load_count := load_count1 }
  | none => none

/-- The `for` loop of `insert_replace`.  `none`: the window was exhausted; otherwise the
returned pointer and the new state. -/
def insert_replace_loop (s : IntrusiveHashMapHolder) (value : Elem) :
    Nat → Nat → Option (Option Elem × IntrusiveHashMapHolder)
  | 0, _ => none
  | n + 1, masked =>
    match slot s.values masked with
    | some v =>
      if v.key = value.key then
        some (some v,
          { s with values := s.values.set masked (some value),
                   list := (s.list.erase_node v).insert_front value })
      else insert_replace_loop s value n ((masked + 1) &&& s.hash_mask)
    | none =>
      some (none,
        { s with values := s.values.set masked (some value),
                 list := s.list.insert_front value,
                 count := s.count + 1 })

/-- `IntrusiveHashMapHolder::insert_replace`.  The first argument bounds the depth of the
grow-and-retry recursion; `none` is a call that does not return within it. -/
def insert_replace : Nat → IntrusiveHashMapHolder → Elem →
    Option (Option Elem × IntrusiveHashMapHolder)
  | 0, _, _ => none
  | fuel + 1, s, value =>
    match (if s.values.isEmpty then grow s else some s) with
    | none => none
    | some s1 =>
      match insert_replace_loop s1 value s1.load_count (value.key &&& s1.hash_mask) with
      | some r => some r
      | none =>
        match grow s1 with
        | some s2 => insert_replace fuel s2 value
        | none => none

/-- The result of `insert_yield`: the returned pointer, the caller's `value` (a
reference parameter) after the call, and the new state. -/
structure YieldResult where
  ret : Option Elem
  value : Elem
  state : IntrusiveHashMapHolder
deriving DecidableEq

/-- The `for` loop of `insert_yield`. -/
def insert_yield_loop (s : IntrusiveHashMapHolder) (value : Elem) :
    Nat → Nat → Option YieldResult
  | 0, _ => none
  | n + 1, masked =>
    match slot s.values masked with
    | some v =>
      if v.key = value.key then some { ret := some value, value := v, state := s }
      else insert_yield_loop s value n ((masked + 1) &&& s.hash_mask)
    | none =>
      some { ret := none, value := value,
             state := { s with values := s.values.set masked (some value),
                               list := s.list.insert_front value,
                               count := s.count + 1 } }

/-- `IntrusiveHashMapHolder::insert_yield`. -/
def insert_yield : Nat → IntrusiveHashMapHolder → Elem → Option YieldResult
  | 0, _, _ => none
  | fuel + 1, s, value =>
    match (if s.values.isEmpty then grow s else some s) with
    | none => none
    | some s1 =>
      match insert_yield_loop s1 value s1.load_count (value.key &&& s1.hash_mask) with
      | some r => some r
      | none =>
        match grow s1 with
        | some s2 => insert_yield fuel s2 value
        | none => none

/-- The `for` loop of `erase`.  `none`: one of the two assertions failed. -/
def erase_loop (s : IntrusiveHashMapHolder) (value : Elem) :
    Nat → Nat → Option IntrusiveHashMapHolder
  | 0, _ => some s
  | n + 1, masked =>
    match slot s.values masked with
    | some v =>
      if v.key = value.key then
        if v = value ∧ 0 < s.count then
          some { s with values := s.values.set masked none,
                        list := s.list.erase_node value,
                        count := s.count - 1 }
        else none
      else erase_loop s value n ((masked + 1) &&& s.hash_mask)
    | none => erase_loop s value n ((masked + 1) &&& s.hash_mask)

/-- `IntrusiveHashMapHolder::erase`. -/
def erase (s : IntrusiveHashMapHolder) (value : Elem) : Option IntrusiveHashMapHolder :=
  erase_loop s value s.load_count (value.key &&& s.hash_mask)

/-- `IntrusiveHashMapHolder::clear`. -/
def clear (_s : IntrusiveHashMapHolder) : IntrusiveHashMapHolder :=
  { values := [], list := [], hash_mask := 0, count := 0, load_count := 0 }

/-- The element `e` is handed to an insert for the first time: no element referenced from
the list or from a slot lives at its address. -/
def Fresh (s : IntrusiveHashMapHolder) (e : Elem) : Prop :=
  (∀ x ∈ s.list, x.ptr ≠ e.ptr) ∧ (∀ x ∈ s.values.reduceOption, x.ptr ≠ e.ptr)

instance (s : IntrusiveHashMapHolder) (e : Elem) : Decidable (Fresh s e) := by
  unfold Fresh
  infer_instance

/-- The element `e` is currently in the table: it is linked in the list and a slot points
to it. -/
def InTable (s : IntrusiveHashMapHolder) (e : Elem) : Prop :=
  e ∈ s.list ∧ some e ∈ s.values

instance (s : IntrusiveHashMapHolder) (e : Elem) : Decidable (InTable s e) := by
  unfold InTable
  infer_instance

/-- The table states that a client can produce from the default-constructed holder with
`insert_replace` and `insert_yield` of fresh elements, `erase` of elements that are in the
table, and `clear`, every call returning (no assertion failure, no endless loop). -/
inductive Reachable : IntrusiveHashMapHolder → Prop
  | init : Reachable empty
  | step_insert_replace {s s1 : IntrusiveHashMapHolder} {e : Elem} {r : Option Elem}
      (fuel : Nat) : Reachable s → Fresh s e → insert_replace fuel s e = some (r, s1) →
      Reachable s1
  | step_insert_yield {s : IntrusiveHashMapHolder} {e : Elem} {r : YieldResult}
      (fuel : Nat) : Reachable s → Fresh s e → insert_yield fuel s e = some r →
      Reachable r.state
  | step_erase {s s1 : IntrusiveHashMapHolder} {e : Elem} :
      Reachable s → InTable s e → erase s e = some s1 → Reachable s1
  | step_clear {s : IntrusiveHashMapHolder} : Reachable s → Reachable (clear s)

/-- The number of non-empty slots. -/
def occupied (s : IntrusiveHashMapHolder) : Nat :=
  (s.values.filter Option.isSome).length

/-- The slot array is either absent (with mask and window reset) or has `16 * 2 ^ j` slots
with a window of `4 + j` and `hash_mask = size - 1`. -/
def Shape (s : IntrusiveHashMapHolder) : Prop :=
  (s.values = [] ∧ s.load_count = 0 ∧ s.hash_mask = 0) ∨
  ∃ j, s.values.length = 2 ^ (j + 4) ∧ s.load_count = j + 4 ∧ s.hash_mask = 2 ^ (j + 4) - 1

/-- The invariant carried by every reachable state: the shape of the slot array, the
slots and the list reference the same elements (with multiplicity), and `count` is the
length of the list. -/
def Inv (s : IntrusiveHashMapHolder) : Prop :=
  Shape s ∧ s.values.reduceOption.Perm s.list ∧ s.count = s.list.length

/-- The probe-window property of a state: every element of the list is referenced from
exactly one slot, and that slot lies less than `load_count` steps after `key & hash_mask`
(modulo the size of the slot array). -/
def WindowInv (s : IntrusiveHashMapHolder) : Prop :=
  ∀ e ∈ s.list,
    (∃ i, i < s.values.length ∧ slot s.values i = some e ∧
      ∀ i2, i2 < s.values.length → slot s.values i2 = some e → i2 = i) ∧
    ∀ i, i < s.values.length → slot s.values i = some e →
      ∃ d, d < s.load_count ∧ i = ((e.key &&& s.hash_mask) + d) % s.values.length

/-- One call of a client program on the holder. -/
inductive Call where
  | insert_replace (e : Elem)
  | insert_yield (e : Elem)
  | erase (e : Elem)
  | clear
deriving DecidableEq

/-- Performs one call under the preconditions of `Reachable`: an inserted element is
fresh, an erased element is in the table.  `none`: a precondition is violated or the call
does not return. -/
def apply_call (s : IntrusiveHashMapHolder) : Call → Option IntrusiveHashMapHolder
  | Call.insert_replace e =>
    if Fresh s e then
      match insert_replace (s.list.length + 2) s e with
      | some (_, s1) => some s1
      | none => none
    else none
  | Call.insert_yield e =>
    if Fresh s e then
      match insert_yield (s.list.length + 2) s e with
      | some r => some r.state
      | none => none
    else none
  | Call.erase e => if InTable s e then erase s e else none
  | Call.clear => some (clear s)

/-- Performs a sequence of calls, first to last. -/
def run_calls (s : IntrusiveHashMapHolder) : List Call → Option IntrusiveHashMapHolder
  | [] => some s
  | c :: cs =>
    match apply_call s c with
    | some s1 => run_calls s1 cs
    | none => none

/-- The client program `insert_replace` of fresh elements with keys `0, 32, 64, 96, 1, 2`
(the object with key `k` lives at address `1000 + k`). -/
def crowded_calls : List Call :=
  [Call.insert_replace ⟨1000, 0⟩, Call.insert_replace ⟨1032, 32⟩,
   Call.insert_replace ⟨1064, 64⟩, Call.insert_replace ⟨1096, 96⟩,
   Call.insert_replace ⟨1001, 1⟩, Call.insert_replace ⟨1002, 2⟩]

/-- The 16-slot table produced by `crowded_calls`: slots `0 .. 5` are occupied. -/
def crowded_state : IntrusiveHashMapHolder :=
  { values := [some ⟨1000, 0⟩, some ⟨1032, 32⟩, some ⟨1064, 64⟩, some ⟨1096, 96⟩,
               some ⟨1001, 1⟩, some ⟨1002, 2⟩] ++ List.replicate 10 none,
    list := [⟨1002, 2⟩, ⟨1001, 1⟩, ⟨1096, 96⟩, ⟨1064, 64⟩, ⟨1032, 32⟩, ⟨1000, 0⟩],
    hash_mask := 15, count := 6, load_count := 4 }

/-- The 32-slot table that `insert_replace` of a fresh element with key `16` produces from
`crowded_state`: the call grows the table once, and the re-insertion puts the element with
key `0` into slot `5`. -/
def overflowed_state : IntrusiveHashMapHolder :=
  { values := [some ⟨1096, 96⟩, some ⟨1001, 1⟩, some ⟨1002, 2⟩, some ⟨1064, 64⟩,
               some ⟨1032, 32⟩, some ⟨1000, 0⟩] ++ List.replicate 10 none ++
              [some ⟨1016, 16⟩] ++ List.replicate 15 none,
    list := [⟨1016, 16⟩, ⟨1002, 2⟩, ⟨1001, 1⟩, ⟨1096, 96⟩, ⟨1064, 64⟩, ⟨1032, 32⟩,
             ⟨1000, 0⟩],
    hash_mask := 31, count := 7, load_count := 5 }

/-- The 16-slot table after `insert_replace` of fresh elements with keys `0` and `16`
(addresses `1000` and `1016`): they occupy slots `0` and `1`. -/
def pair_state : IntrusiveHashMapHolder :=
  { values := [some ⟨1000, 0⟩, some ⟨1016, 16⟩] ++ List.replicate 14 none,
    list := [⟨1016, 16⟩, ⟨1000, 0⟩],
    hash_mask := 15, count := 2, load_count := 4 }

/-- The table `pair_state` after `erase` of the element with key `0`: slot `0` is empty
again and the element with key `16` is still in slot `1`. -/
def hole_state : IntrusiveHashMapHolder :=
  { values := [none, some ⟨1016, 16⟩] ++ List.replicate 14 none,
    list := [⟨1016, 16⟩],
    hash_mask := 15, count := 1, load_count := 4 }

/-- The table `hole_state` after an insert of a fresh element with key `16` at address
`2016`: the new element sits in slot `0`, in front of the old element with the same key. -/
def twin_state : IntrusiveHashMapHolder :=
  { values := [some ⟨2016, 16⟩, some ⟨1016, 16⟩] ++ List.replicate 14 none,
    list := [⟨2016, 16⟩, ⟨1016, 16⟩],
    hash_mask := 15, count := 2, load_count := 4 }

/-- A client program that only inserts: for each pair, `insert_yield` of the element when
the flag is set and `insert_replace` of it otherwise. -/
def insert_calls (es : List (Bool × Elem)) : List Call :=
  es.map fun p => if p.1 then Call.insert_yield p.2 else Call.insert_replace p.2

/-- The elements with keys `0, 1, ..., n - 1`; the one with key `k` lives at address
`1000 + k`. -/
def key_range (n : Nat) : List Elem :=
  (List.range n).map fun k => { ptr := 1000 + k, key := k }

/-- The table states that a client can produce without `erase`: from the
default-constructed holder with `insert_replace` and `insert_yield` of fresh elements and
`clear`. -/
inductive ReachableNoErase : IntrusiveHashMapHolder → Prop
  | init : ReachableNoErase empty
  | step_insert_replace {s s1 : IntrusiveHashMapHolder} {e : Elem} {r : Option Elem}
      (fuel : Nat) : ReachableNoErase s → Fresh s e →
      insert_replace fuel s e = some (r, s1) → ReachableNoErase s1
  | step_insert_yield {s : IntrusiveHashMapHolder} {e : Elem} {r : YieldResult}
      (fuel : Nat) : ReachableNoErase s → Fresh s e → insert_yield fuel s e = some r →
      ReachableNoErase r.state
  | step_clear {s : IntrusiveHashMapHolder} : ReachableNoErase s → ReachableNoErase (clear s)

/-- The probe of `find` in the words of the specification, `d` steps into the window with
`n` steps left: the slot `d` steps after `start` (modulo the number of slots) is examined;
an element with the key is returned, an empty slot ends the probe with none. -/
def spec_find_steps (values : List (Option Elem)) (key start : Nat) : Nat → Nat → Option Elem
  | 0, _ => none
  | n + 1, d =>
    match slot values ((start + d) % values.length) with
    | some v => if v.key = key then some v else spec_find_steps values key start n (d + 1)
    | none => none

/-- The `find` of the specification: none on an empty table, otherwise the probe from
`key & mask` for at most `probe_limit` steps that stops at the first empty slot. -/
def spec_find (s : IntrusiveHashMapHolder) (key : Nat) : Option Elem :=
  if s.values.isEmpty then none
  else spec_find_steps s.values key (key &&& s.hash_mask) s.load_count 0

/-- The probe of the specification without the stop at an empty slot: an empty slot is
passed over like a slot that holds another key. -/
def window_find_steps (values : List (Option Elem)) (key start : Nat) :
    Nat → Nat → Option Elem
  | 0, _ => none
  | n + 1, d =>
    match slot values ((start + d) % values.length) with
    | some v => if v.key = key then some v else window_find_steps values key start n (d + 1)
    | none => window_find_steps values key start n (d + 1)

/-- The lookup that examines the whole window: none on an empty table, otherwise the
first element with the key among the `probe_limit` slots from `key & mask` on. -/
def window_find (s : IntrusiveHashMapHolder) (key : Nat) : Option Elem :=
  if s.values.isEmpty then none
  else window_find_steps s.values key (key &&& s.hash_mask) s.load_count 0

/-- The state after `n` successive calls of `grow`, as they happen when an insert
retries. -/
def grow_times : Nat → IntrusiveHashMapHolder → Option IntrusiveHashMapHolder
  | 0, s => some s
  | n + 1, s =>
    match grow s with
    | some s1 => grow_times n s1
    | none => none

/-- No occupied slot is preceded by an empty slot on the way from the home slot of its
element: if the slot `d` steps after `key & hash_mask` holds `e`, the slots fewer steps
after it are occupied. -/
def GapFreeSlots (values : List (Option Elem)) (hash_mask : Nat) : Prop :=
  ∀ (e : Elem) (d : Nat), d < values.length →
    slot values (((e.key &&& hash_mask) + d) % values.length) = some e →
    ∀ d1, d1 < d → slot values (((e.key &&& hash_mask) + d1) % values.length) ≠ none

/-- The slot array of the state has no gap in the sense of `GapFreeSlots`. -/
def GapFree (s : IntrusiveHashMapHolder) : Prop :=
  GapFreeSlots s.values s.hash_mask

/-- Scenario S2, the 16-slot table after `insert_replace` of keys `0, 16, 32, 48`. -/
def scenario2_before : IntrusiveHashMapHolder :=
  { values := [some ⟨1000, 0⟩, some ⟨1016, 16⟩, some ⟨1032, 32⟩, some ⟨1048, 48⟩] ++
              List.replicate 12 none,
    list := [⟨1048, 48⟩, ⟨1032, 32⟩, ⟨1016, 16⟩, ⟨1000, 0⟩],
    hash_mask := 15, count := 4, load_count := 4 }

/-- Scenario S2, `scenario2_before` after one call of `grow`. -/
def scenario2_grown : IntrusiveHashMapHolder :=
  { values := [some ⟨1032, 32⟩, some ⟨1000, 0⟩] ++ List.replicate 14 none ++
              [some ⟨1048, 48⟩, some ⟨1016, 16⟩] ++ List.replicate 14 none,
    list := [⟨1048, 48⟩, ⟨1032, 32⟩, ⟨1016, 16⟩, ⟨1000, 0⟩],
    hash_mask := 31, count := 4, load_count := 5 }

/-- Scenario S2, the 32-slot table after the fifth insert, of key `64`. -/
def scenario2_after : IntrusiveHashMapHolder :=
  { values := [some ⟨1032, 32⟩, some ⟨1000, 0⟩, some ⟨1064, 64⟩] ++ List.replicate 13 none ++
              [some ⟨1048, 48⟩, some ⟨1016, 16⟩] ++ List.replicate 14 none,
    list := [⟨1064, 64⟩, ⟨1048, 48⟩, ⟨1032, 32⟩, ⟨1016, 16⟩, ⟨1000, 0⟩],
    hash_mask := 31, count := 5, load_count := 5 }

/-- The sequence of elements that a loop from `begin()` to `end()` visits: the intrusive
list, front to back. -/
def iteration (s : IntrusiveHashMapHolder) : List Elem := s.list

/-- Scenario S1, the 32-slot table after `insert_replace` of keys `0, 1, ..., 16`: each
element is in the slot of its key. -/
def scenario1_after : IntrusiveHashMapHolder :=
  { values := (key_range 17).map some ++ List.replicate 15 none,
    list := (key_range 17).reverse,
    hash_mask := 31, count := 17, load_count := 5 }

end IntrusiveHashMapHolder

/-- Modelled from the spec: `ObjectPool<T>` (`object_pool.hpp` is not among the sources).
Only the set of addresses handed out by `allocate` and not yet given back by `free` is
kept. -/
structure ObjectPool where
  live : List Nat
deriving DecidableEq

/-- Modelled from the spec: `ObjectPool::allocate`; `ptr` is the address the pool returns. -/
def ObjectPool.allocate (p : ObjectPool) (ptr : Nat) : ObjectPool :=
  { live := ptr :: p.live }

/-- Modelled from the spec: `ObjectPool::free`. -/
def ObjectPool.free (p : ObjectPool) (ptr : Nat) : ObjectPool :=
  { live := p.live.filter (fun q => q ≠ ptr) }

/-- The data members of `IntrusiveHashMap<T>`. -/
structure IntrusiveHashMap where
  hashmap : IntrusiveHashMapHolder
  pool : ObjectPool
deriving DecidableEq

namespace IntrusiveHashMap

/-- The default-constructed owning map. -/
def empty : IntrusiveHashMap :=
  { hashmap := IntrusiveHashMapHolder.empty, pool := { live := [] } }

/-- `IntrusiveHashMap::clear`: frees every element of the list, then clears the holder. -/
def clear (m : IntrusiveHashMap) : IntrusiveHashMap :=
  { hashmap := m.hashmap.clear,
    pool := m.hashmap.list.foldl (fun p t => p.free t.ptr) m.pool }

/-- `IntrusiveHashMap::find`. -/
def find (m : IntrusiveHashMap) (hash : Nat) : Option Elem :=
  m.hashmap.find hash

/-- `IntrusiveHashMap::erase`. -/
def erase (m : IntrusiveHashMap) (value : Elem) : Option IntrusiveHashMap :=
  match m.hashmap.erase value with
  | some h => some { hashmap := h, pool := m.pool.free value.ptr }
  | none => none

/-- `IntrusiveHashMap::allocate`; `ptr` is the address the pool returns. -/
def allocate (m : IntrusiveHashMap) (ptr : Nat) : IntrusiveHashMap :=
  { m with pool := m.pool.allocate ptr }

/-- `IntrusiveHashMap::free`. -/
def free (m : IntrusiveHashMap) (ptr : Nat) : IntrusiveHashMap :=
  { m with pool := m.pool.free ptr }

/-- The `if (to_delete) pool.free(to_delete);` of the two inserts. -/
def free_to_delete (p : ObjectPool) : Option Elem → ObjectPool
  | some d => p.free d.ptr
  | none => p

/-- `IntrusiveHashMap::insert_replace`: stamps the key into the object at `ptr`, inserts it
and frees the displaced element. Returns `value`. -/
def insert_replace (fuel : Nat) (m : IntrusiveHashMap) (hash ptr : Nat) :
    Option (Elem × IntrusiveHashMap) :=
  let value : Elem := { ptr := ptr, key := hash }
  match m.hashmap.insert_replace fuel value with
  | some (to_delete, h) =>
    some (value, { hashmap := h, pool := free_to_delete m.pool to_delete })
  | none => none

/-- `IntrusiveHashMap::insert_yield`: `value` is passed to the holder by reference, so the
returned `value` is the element that stays in the table. -/
def insert_yield (fuel : Nat) (m : IntrusiveHashMap) (hash ptr : Nat) :
    Option (Elem × IntrusiveHashMap) :=
  let value : Elem := { ptr := ptr, key := hash }
  match m.hashmap.insert_yield fuel value with
  | some r => some (r.value, { hashmap := r.state, pool := free_to_delete m.pool r.ret })
  | none => none

/-- `IntrusiveHashMap::emplace_replace`. -/
def emplace_replace (fuel : Nat) (m : IntrusiveHashMap) (hash ptr : Nat) :
    Option (Elem × IntrusiveHashMap) :=
  insert_replace fuel (m.allocate ptr) hash ptr

/-- `IntrusiveHashMap::emplace_yield`. -/
def emplace_yield (fuel : Nat) (m : IntrusiveHashMap) (hash ptr : Nat) :
    Option (Elem × IntrusiveHashMap) :=
  insert_yield fuel (m.allocate ptr) hash ptr

/-- The states of the owning map that a client can produce through its public member
functions.  `allocate` returns an address that is not live; `free`, `insert_replace` and
`insert_yield` take an object obtained from `allocate` (live) that is not in the table;
`erase` takes an element of the table. -/
inductive Reachable : IntrusiveHashMap → Prop
  | init : Reachable empty
  | step_allocate {m : IntrusiveHashMap} (ptr : Nat) :
      Reachable m → ptr ∉ m.pool.live → Reachable (m.allocate ptr)
  | step_free {m : IntrusiveHashMap} (ptr : Nat) :
      Reachable m → ptr ∈ m.pool.live → (∀ x ∈ m.hashmap.list, x.ptr ≠ ptr) →
      Reachable (m.free ptr)
  | step_insert_replace {m m1 : IntrusiveHashMap} {e : Elem} (fuel hash ptr : Nat) :
      Reachable m → ptr ∈ m.pool.live → m.hashmap.Fresh { ptr := ptr, key := hash } →
      insert_replace fuel m hash ptr = some (e, m1) → Reachable m1
  | step_insert_yield {m m1 : IntrusiveHashMap} {e : Elem} (fuel hash ptr : Nat) :
      Reachable m → ptr ∈ m.pool.live → m.hashmap.Fresh { ptr := ptr, key := hash } →
      insert_yield fuel m hash ptr = some (e, m1) → Reachable m1
  | step_emplace_replace {m m1 : IntrusiveHashMap} {e : Elem} (fuel hash ptr : Nat) :
      Reachable m → ptr ∉ m.pool.live → m.hashmap.Fresh { ptr := ptr, key := hash } →
      emplace_replace fuel m hash ptr = some (e, m1) → Reachable m1
  | step_emplace_yield {m m1 : IntrusiveHashMap} {e : Elem} (fuel hash ptr : Nat) :
      Reachable m → ptr ∉ m.pool.live → m.hashmap.Fresh { ptr := ptr, key := hash } →
      emplace_yield fuel m hash ptr = some (e, m1) → Reachable m1
  | step_erase {m m1 : IntrusiveHashMap} {e : Elem} :
      Reachable m → m.hashmap.InTable e → erase m e = some m1 → Reachable m1
  | step_clear {m : IntrusiveHashMap} : Reachable m → Reachable (clear m)

/-- One call of a client program on the owning map. -/
inductive Call where
  | emplace_replace (hash ptr : Nat)
  | emplace_yield (hash ptr : Nat)
  | erase (e : Elem)
  | clear
deriving DecidableEq

/-- Performs one call under the preconditions of `Reachable`.  `none`: a precondition is
violated or the call does not return. -/
def apply_call (m : IntrusiveHashMap) : Call → Option IntrusiveHashMap
  | Call.emplace_replace hash ptr =>
    if ptr ∉ m.pool.live ∧ m.hashmap.Fresh { ptr := ptr, key := hash } then
      match emplace_replace (m.hashmap.list.length + 2) m hash ptr with
      | some (_, m1) => some m1
      | none => none
    else none
  | Call.emplace_yield hash ptr =>
    if ptr ∉ m.pool.live ∧ m.hashmap.Fresh { ptr := ptr, key := hash } then
      match emplace_yield (m.hashmap.list.length + 2) m hash ptr with
      | some (_, m1) => some m1
      | none => none
    else none
  | Call.erase e => if m.hashmap.InTable e then erase m e else none
  | Call.clear => some (clear m)

/-- Performs a sequence of calls, first to last. -/
def run_calls (m : IntrusiveHashMap) : List Call → Option IntrusiveHashMap
  | [] => some m
  | c :: cs =>
    match apply_call m c with
    | some m1 => run_calls m1 cs
    | none => none

/-- The client program `emplace_replace` with keys `0, 32, 64, 96, 1, 2, 16` (the object
for key `k` is allocated at address `1000 + k`) followed by `erase` of the element returned
for key `0`. -/
def stale_calls : List Call :=
  [Call.emplace_replace 0 1000, Call.emplace_replace 32 1032, Call.emplace_replace 64 1064,
   Call.emplace_replace 96 1096, Call.emplace_replace 1 1001, Call.emplace_replace 2 1002,
   Call.emplace_replace 16 1016, Call.erase ⟨1000, 0⟩]

/-- The owning map produced by `stale_calls`: the table is `overflowed_state`, untouched by
the `erase`, and the pool has taken back the object at address `1000`. -/
def stale_map : IntrusiveHashMap :=
  { hashmap := IntrusiveHashMapHolder.overflowed_state,
    pool := { live := [1016, 1002, 1001, 1096, 1064, 1032] } }

/-- The reachable states of the owning map together with the addresses that are pending:
returned by `allocate()` and since then neither inserted nor given to `free()`.  The steps
and their preconditions are those of `Reachable`.  `allocate` adds its address to the
pending ones; `free`, `insert_replace` and `insert_yield` take theirs away; the emplace
functions, `erase` and `clear` leave the pending addresses as they are. -/
inductive ReachablePending : IntrusiveHashMap → List Nat → Prop
  | init : ReachablePending empty []
  | step_allocate {m : IntrusiveHashMap} {pending : List Nat} (ptr : Nat) :
      ReachablePending m pending → ptr ∉ m.pool.live →
      ReachablePending (m.allocate ptr) (ptr :: pending)
  | step_free {m : IntrusiveHashMap} {pending : List Nat} (ptr : Nat) :
      ReachablePending m pending → ptr ∈ m.pool.live →
      (∀ x ∈ m.hashmap.list, x.ptr ≠ ptr) →
      ReachablePending (m.free ptr) (pending.filter fun q => q ≠ ptr)
  | step_insert_replace {m m1 : IntrusiveHashMap} {pending : List Nat} {e : Elem}
      (fuel hash ptr : Nat) :
      ReachablePending m pending → ptr ∈ m.pool.live →
      m.hashmap.Fresh { ptr := ptr, key := hash } →
      insert_replace fuel m hash ptr = some (e, m1) →
      ReachablePending m1 (pending.filter fun q => q ≠ ptr)
  | step_insert_yield {m m1 : IntrusiveHashMap} {pending : List Nat} {e : Elem}
      (fuel hash ptr : Nat) :
      ReachablePending m pending → ptr ∈ m.pool.live →
      m.hashmap.Fresh { ptr := ptr, key := hash } →
      insert_yield fuel m hash ptr = some (e, m1) →
      ReachablePending m1 (pending.filter fun q => q ≠ ptr)
  | step_emplace_replace {m m1 : IntrusiveHashMap} {pending : List Nat} {e : Elem}
      (fuel hash ptr : Nat) :
      ReachablePending m pending → ptr ∉ m.pool.live →
      m.hashmap.Fresh { ptr := ptr, key := hash } →
      emplace_replace fuel m hash ptr = some (e, m1) → ReachablePending m1 pending
  | step_emplace_yield {m m1 : IntrusiveHashMap} {pending : List Nat} {e : Elem}
      (fuel hash ptr : Nat) :
      ReachablePending m pending → ptr ∉ m.pool.live →
      m.hashmap.Fresh { ptr := ptr, key := hash } →
      emplace_yield fuel m hash ptr = some (e, m1) → ReachablePending m1 pending
  | step_erase {m m1 : IntrusiveHashMap} {pending : List Nat} {e : Elem} :
      ReachablePending m pending → m.hashmap.InTable e → erase m e = some m1 →
      ReachablePending m1 pending
  | step_clear {m : IntrusiveHashMap} {pending : List Nat} :
      ReachablePending m pending → ReachablePending (clear m) pending

end IntrusiveHashMap

namespace IntrusiveHashMapHolder

/-! ### Slots -/

theorem slot_eq_getElem? (l : List (Option Elem)) (i : Nat) : slot l i = (l[i]?).getD none := by
  simp [slot]

theorem slot_of_le (l : List (Option Elem)) (i : Nat) (h : l.length ≤ i) : slot l i = none := by
  simp [slot, List.getElem?_eq_none h]

theorem lt_of_slot_some {l : List (Option Elem)} {i : Nat} {v : Elem}
    (h : slot l i = some v) : i < l.length := by
  by_contra hc
  rw [slot_of_le l i (by omega)] at h
  cases h

theorem slot_set_self (l : List (Option Elem)) (i : Nat) (x : Option Elem)
    (h : i < l.length) : slot (l.set i x) i = x := by
  simp [slot, List.getElem?_set, h]

theorem slot_set_other (l : List (Option Elem)) (i j : Nat) (x : Option Elem)
    (h : i ≠ j) : slot (l.set i x) j = slot l j := by
  simp [slot, List.getElem?_set, h]

theorem slot_replicate (n i : Nat) : slot (List.replicate n none) i = none := by
  simp only [slot_eq_getElem?, List.getElem?_replicate]
  split <;> rfl

theorem slot_cons_succ (v : Option Elem) (l : List (Option Elem)) (i : Nat) :
    slot (v :: l) (i + 1) = slot l i := by
  simp [slot]

theorem slot_cons_zero (v : Option Elem) (l : List (Option Elem)) :
    slot (v :: l) 0 = v := by
  simp [slot]

theorem mem_of_slot_some {l : List (Option Elem)} {i : Nat} {v : Elem}
    (h : slot l i = some v) : some v ∈ l := by
  have hi := lt_of_slot_some h
  rw [slot_eq_getElem?, List.getElem?_eq_getElem hi] at h
  simp only [Option.getD_some] at h
  rw [← h]
  exact List.getElem_mem hi

theorem exists_slot_of_mem {l : List (Option Elem)} {x : Option Elem} (h : x ∈ l) :
    ∃ i, i < l.length ∧ slot l i = x := by
  obtain ⟨i, hi, rfl⟩ := List.getElem_of_mem h
  exact ⟨i, hi, by simp [slot_eq_getElem?, List.getElem?_eq_getElem hi]⟩

/-! ### The slots as a multiset of elements -/

theorem reduceOption_set_none_of_some (l : List (Option Elem)) (i : Nat) (v : Elem)
    (h : slot l i = some v) :
    (l.set i none).reduceOption.Perm (l.reduceOption.erase v) := by
  induction l generalizing i with
  | nil => simp [slot] at h
  | cons a l ih =>
    cases i with
    | zero =>
      rw [slot_cons_zero] at h
      subst h
      simp [List.reduceOption_cons_of_some, List.reduceOption_cons_of_none]
    | succ i =>
      rw [slot_cons_succ] at h
      cases a with
      | none =>
        simpa [List.reduceOption_cons_of_none] using ih i h
      | some b =>
        simp only [List.set_cons_succ, List.reduceOption_cons_of_some]
        by_cases hb : b = v
        · subst hb
          rw [List.erase_cons_head]
          have h1 := ih i h
          have hmem : b ∈ l.reduceOption :=
            List.reduceOption_mem_iff.mpr (mem_of_slot_some h)
          exact (List.Perm.cons b h1).trans (List.perm_cons_erase hmem).symm
        · rw [List.erase_cons_tail (by simpa using hb)]
          exact List.Perm.cons b (ih i h)

theorem reduceOption_set_some_of_none (l : List (Option Elem)) (i : Nat) (e : Elem)
    (hi : i < l.length) (h : slot l i = none) :
    (l.set i (some e)).reduceOption.Perm (e :: l.reduceOption) := by
  induction l generalizing i with
  | nil => simp at hi
  | cons a l ih =>
    cases i with
    | zero =>
      rw [slot_cons_zero] at h
      subst h
      simp [List.reduceOption_cons_of_some, List.reduceOption_cons_of_none]
    | succ i =>
      rw [slot_cons_succ] at h
      have hi2 : i < l.length := by simpa using hi
      cases a with
      | none =>
        simpa [List.reduceOption_cons_of_none] using ih i hi2 h
      | some b =>
        simp only [List.set_cons_succ, List.reduceOption_cons_of_some]
        exact (List.Perm.cons b (ih i hi2 h)).trans (List.Perm.swap e b _)

theorem reduceOption_set_some_of_some (l : List (Option Elem)) (i : Nat) (e v : Elem)
    (h : slot l i = some v) :
    (l.set i (some e)).reduceOption.Perm (e :: l.reduceOption.erase v) := by
  have hi := lt_of_slot_some h
  have h1 : l.set i (some e) = (l.set i none).set i (some e) := by
    rw [List.set_set]
  rw [h1]
  refine (reduceOption_set_some_of_none (l.set i none) i e (by simpa using hi)
    (slot_set_self l i none hi)).trans ?_
  exact List.Perm.cons e (reduceOption_set_none_of_some l i v h)

theorem occupied_eq (s : IntrusiveHashMapHolder) :
    occupied s = s.values.reduceOption.length := by
  unfold occupied
  exact List.reduceOption_length_eq.symm

/-! ### Counting occupied slots -/

theorem length_le_reduceOption_of_nodup (l : List (Option Elem)) (idx : List Nat)
    (hnd : idx.Nodup) (hs : ∀ i ∈ idx, slot l i ≠ none) :
    idx.length ≤ l.reduceOption.length := by
  induction l generalizing idx with
  | nil =>
    cases idx with
    | nil => simp
    | cons i rest => exact absurd (slot_of_le [] i (by simp)) (hs i (by simp))
  | cons a l ih =>
    have hnd2 : ((idx.erase 0).map Nat.pred).Nodup := by
      refine (hnd.erase 0).map_on ?_
      intro x hx y hy hxy
      have hx0 : x ≠ 0 := fun h => by
        subst h
        exact (List.Nodup.not_mem_erase hnd) hx
      have hy0 : y ≠ 0 := fun h => by
        subst h
        exact (List.Nodup.not_mem_erase hnd) hy
      simp only [Nat.pred_eq_sub_one] at hxy
      omega
    have hs2 : ∀ i ∈ (idx.erase 0).map Nat.pred, slot l i ≠ none := by
      intro i hi
      obtain ⟨x, hx, rfl⟩ := List.mem_map.mp hi
      have hx0 : x ≠ 0 := fun h => by
        subst h
        exact (List.Nodup.not_mem_erase hnd) hx
      obtain ⟨y, rfl⟩ := Nat.exists_eq_succ_of_ne_zero hx0
      have := hs (y + 1) (List.mem_of_mem_erase hx)
      rwa [slot_cons_succ] at this
    have h1 := ih _ hnd2 hs2
    rw [List.length_map] at h1
    by_cases h0 : 0 ∈ idx
    · have ha : a ≠ none := by
        have := hs 0 h0
        rwa [slot_cons_zero] at this
      obtain ⟨b, rfl⟩ := Option.ne_none_iff_exists'.mp ha
      rw [List.reduceOption_cons_of_some, List.length_cons]
      rw [List.length_erase_of_mem h0] at h1
      omega
    · rw [List.erase_of_not_mem h0] at h1
      cases a with
      | none => rwa [List.reduceOption_cons_of_none]
      | some b =>
        rw [List.reduceOption_cons_of_some, List.length_cons]
        omega

theorem add_mod_inj {N m a b : Nat} (ha : a < N) (hb : b < N)
    (h : (m + a) % N = (m + b) % N) : a = b := by
  have h1 : a ≡ b [MOD N] := Nat.ModEq.add_left_cancel' m h
  exact Nat.ModEq.eq_of_lt_of_lt h1 ha hb

/-- A run of `n ≤ N` consecutive slots (modulo the size `N`) that are all occupied shows
that at least `n` slots are occupied. -/
theorem window_le_reduceOption (l : List (Option Elem)) (N m n : Nat) (hn : n ≤ N)
    (hs : ∀ t, t < n → slot l ((m + t) % N) ≠ none) : n ≤ l.reduceOption.length := by
  have hnd : ((List.range n).map (fun t => (m + t) % N)).Nodup := by
    refine (List.nodup_range n).map_on ?_
    intro a ha b hb hab
    exact add_mod_inj (by have := List.mem_range.mp ha; omega)
      (by have := List.mem_range.mp hb; omega) hab
  have h := length_le_reduceOption_of_nodup l _ hnd (by
    intro i hi
    obtain ⟨t, ht, rfl⟩ := List.mem_map.mp hi
    exact hs t (List.mem_range.mp ht))
  simpa using h

/-! ### The probe sequence -/

theorem and_mask (x k : Nat) : x &&& (2 ^ k - 1) = x % 2 ^ k :=
  Nat.and_pow_two_sub_one_eq_mod x k

theorem and_mask_lt (x k : Nat) : x &&& (2 ^ k - 1) < 2 ^ k := by
  rw [and_mask]
  exact Nat.mod_lt _ (Nat.two_pow_pos k)

theorem probe_next (m t N : Nat) : ((m + 1) % N + t) % N = (m + (t + 1)) % N := by
  rw [Nat.mod_add_mod]
  congr 1
  omega

/-- The unbounded probe of `insert_inner` ends at an empty slot as soon as one of the
slots it will visit is empty. -/
theorem insert_inner_loop_some (l : List (Option Elem)) (k : Nat) :
    ∀ fuel m, m < 2 ^ k → (∃ t, t < fuel ∧ slot l ((m + t) % 2 ^ k) = none) →
      ∃ p, insert_inner_loop l (2 ^ k - 1) fuel m = some p ∧ slot l p = none ∧ p < 2 ^ k := by
  intro fuel
  induction fuel with
  | zero =>
    intro m _ h
    obtain ⟨t, ht, _⟩ := h
    omega
  | succ fuel ih =>
    intro m hm h
    obtain ⟨t, ht, hslot⟩ := h
    unfold insert_inner_loop
    cases hv : slot l m with
    | none => exact ⟨m, rfl, hv, hm⟩
    | some v =>
      simp only
      rw [and_mask]
      cases t with
      | zero =>
        rw [Nat.add_zero, Nat.mod_eq_of_lt hm, hv] at hslot
        cases hslot
      | succ t =>
        refine ih _ (Nat.mod_lt _ (Nat.two_pow_pos k)) ⟨t, by omega, ?_⟩
        rw [probe_next]
        exact hslot

/-- Every slot is visited by the unbounded probe within `N` steps. -/
theorem exists_probe_index (N m j : Nat) (hm : m < N) (hj : j < N) :
    ∃ t, t < N ∧ (m + t) % N = j := by
  refine ⟨(j + N - m) % N, Nat.mod_lt _ (by omega), ?_⟩
  rw [Nat.add_mod_mod]
  have : m + (j + N - m) = j + N := by omega
  rw [this, Nat.add_mod_right, Nat.mod_eq_of_lt hj]

theorem exists_empty_slot (l : List (Option Elem)) (h : l.reduceOption.length < l.length) :
    ∃ j, j < l.length ∧ slot l j = none := by
  have := List.reduceOption_length_lt_iff.mp h
  exact exists_slot_of_mem this

/-- `insert_inner` returns when the slot array has `2 ^ k` slots, not all occupied, and
`hash_mask = 2 ^ k - 1`. -/
theorem insert_inner_some (l : List (Option Elem)) (k : Nat) (e : Elem)
    (hl : l.length = 2 ^ k) (hfree : l.reduceOption.length < l.length) :
    ∃ l1, insert_inner l (2 ^ k - 1) e = some l1 ∧ l1.length = 2 ^ k ∧
      l1.reduceOption.Perm (e :: l.reduceOption) := by
  obtain ⟨j, hj, hjs⟩ := exists_empty_slot l hfree
  have hm := and_mask_lt e.key k
  obtain ⟨t, ht, hte⟩ := exists_probe_index (2 ^ k) (e.key &&& (2 ^ k - 1)) j hm (hl ▸ hj)
  obtain ⟨p, hp, hps, hpl⟩ := insert_inner_loop_some l k (2 ^ k) _ hm
    ⟨t, ht, by rw [hte]; exact hjs⟩
  refine ⟨l.set p (some e), ?_, by simpa using hl, ?_⟩
  · unfold insert_inner
    rw [hl, hp]
  · exact reduceOption_set_some_of_none l p e (hl ▸ hpl) hps

/-- The re-insertion loop of `grow` returns when there is room for all elements. -/
theorem reinsert_some (k : Nat) : ∀ (es : List Elem) (l : List (Option Elem)),
    l.length = 2 ^ k → l.reduceOption.length + es.length < 2 ^ k →
    ∃ l1, reinsert (2 ^ k - 1) es l = some l1 ∧ l1.length = 2 ^ k ∧
      l1.reduceOption.Perm (es ++ l.reduceOption) := by
  intro es
  induction es with
  | nil =>
    intro l hl _
    exact ⟨l, rfl, hl, by simp⟩
  | cons e es ih =>
    intro l hl hroom
    simp only [List.length_cons] at hroom
    obtain ⟨l1, h1, hl1, hp1⟩ := insert_inner_some l k e hl (by omega)
    have hlen1 : l1.reduceOption.length = l.reduceOption.length + 1 := by
      simpa using hp1.length_eq
    obtain ⟨l2, h2, hl2, hp2⟩ := ih l1 hl1 (by omega)
    refine ⟨l2, ?_, hl2, ?_⟩
    · simp only [reinsert, h1, h2]
    · refine hp2.trans ?_
      refine (List.Perm.append_left es hp1).trans ?_
      exact List.perm_middle

/-! ### `grow` -/

theorem Shape.mask_lt {s : IntrusiveHashMapHolder} (h : Shape s) (hne : s.values ≠ []) :
    ∃ k, s.values.length = 2 ^ k ∧ s.hash_mask = 2 ^ k - 1 ∧ s.load_count ≤ 2 ^ k ∧
      s.load_count = k := by
  rcases h with ⟨h, _, _⟩ | ⟨j, h1, h2, h3⟩
  · exact absurd h hne
  · refine ⟨j + 4, h1, h3, ?_, h2⟩
    rw [h2]
    exact le_of_lt (Nat.lt_two_pow (j + 4))

theorem Inv.length_le {s : IntrusiveHashMapHolder} (h : Inv s) :
    s.list.length ≤ s.values.length := by
  rw [← h.2.1.length_eq]
  exact List.reduceOption_length_le _

/-- From a state that satisfies the invariant `grow` returns; the list and `count` are
unchanged, the slot array is non-empty and the invariant holds again. -/
theorem grow_some {s : IntrusiveHashMapHolder} (h : Inv s) :
    ∃ s2, grow s = some s2 ∧ Inv s2 ∧ s2.list = s.list ∧ s2.count = s.count ∧
      s2.values ≠ [] ∧
      s2.load_count = (if s.values.isEmpty then InitialLoadCount else s.load_count + 1) := by
  obtain ⟨hshape, hperm, hcount⟩ := h
  have hlen := Inv.length_le ⟨hshape, hperm, hcount⟩
  rcases hshape with ⟨h1, h2, h3⟩ | ⟨j, h1, h2, h3⟩
  · have hl : s.list = [] := by
      rw [h1] at hperm
      simpa using hperm.symm
    refine ⟨{ s with values := List.replicate 16 none, hash_mask := 15, load_count := 4 },
      ?_, ⟨Or.inr ⟨0, by simp, rfl, rfl⟩, ?_, hcount⟩, rfl, rfl, by simp, ?_⟩
    · simp [grow, h1, hl, reinsert, InitialSize, InitialLoadCount]
    · rw [hl]
      simp [List.reduceOption, List.replicate]
    · simp [h1, InitialLoadCount]
  · have hne : s.values ≠ [] := by
      intro hc
      rw [hc] at h1
      have := Nat.two_pow_pos (j + 4)
      simp at h1
      omega
    have hemp : s.values.isEmpty = false := by
      cases hv : s.values with
      | nil => exact absurd hv hne
      | cons a l => rfl
    have hsize : s.values.length * 2 = 2 ^ (j + 1 + 4) := by
      rw [h1]
      ring
    have hrepl : (List.replicate (2 ^ (j + 1 + 4)) (none : Option Elem)).reduceOption = [] := by
      generalize 2 ^ (j + 1 + 4) = n
      induction n with
      | zero => rfl
      | succ n ih => rw [List.replicate_succ, List.reduceOption_cons_of_none, ih]
    obtain ⟨l1, hl1, hlen1, hperm1⟩ := reinsert_some (j + 1 + 4) s.list
      (List.replicate (2 ^ (j + 1 + 4)) none) (by simp) (by
        rw [hrepl]
        simp only [List.length_nil, Nat.zero_add]
        have : 2 ^ (j + 1 + 4) = 2 ^ (j + 4) * 2 := by ring
        have := Nat.two_pow_pos (j + 4)
        omega)
    refine ⟨{ s with values := l1, hash_mask := 2 ^ (j + 1 + 4) - 1,
                     load_count := s.load_count + 1 },
      ?_, ⟨Or.inr ⟨j + 1, hlen1, by show s.load_count + 1 = j + 1 + 4; omega, rfl⟩, ?_, hcount⟩, rfl, rfl, ?_, ?_⟩
    · simp only [grow, hemp, hsize, Bool.false_eq_true, if_false, hl1]
    · simpa [hrepl] using hperm1
    · intro hc
      simp only at hc
      rw [hc] at hlen1
      have := Nat.two_pow_pos (j + 1 + 4)
      simp at hlen1
      omega
    · simp [hemp]

/-! ### The window loop of `insert_replace` -/

/-- What a returning window loop of `insert_replace` did: it wrote `e` into one slot `p`,
which was empty or held an element with the key of `e`. -/
theorem insert_replace_loop_some {s s1 : IntrusiveHashMapHolder} {e : Elem} {r : Option Elem}
    (hmask : s.hash_mask < s.values.length) :
    ∀ n m, m < s.values.length → insert_replace_loop s e n m = some (r, s1) →
      ∃ p, p < s.values.length ∧ s1.values = s.values.set p (some e) ∧
        s1.hash_mask = s.hash_mask ∧ s1.load_count = s.load_count ∧
        ((slot s.values p = none ∧ r = none ∧ s1.list = e :: s.list ∧
            s1.count = s.count + 1) ∨
         (∃ v, slot s.values p = some v ∧ v.key = e.key ∧ r = some v ∧
            s1.list = e :: s.list.erase v ∧ s1.count = s.count)) := by
  intro n
  induction n with
  | zero =>
    intro m _ h
    simp [insert_replace_loop] at h
  | succ n ih =>
    intro m hm h
    unfold insert_replace_loop at h
    cases hv : slot s.values m with
    | none =>
      rw [hv] at h
      simp only [Option.some.injEq, Prod.mk.injEq] at h
      obtain ⟨rfl, rfl⟩ := h
      exact ⟨m, hm, rfl, rfl, rfl, Or.inl ⟨hv, rfl, rfl, rfl⟩⟩
    | some v =>
      rw [hv] at h
      simp only at h
      by_cases hk : v.key = e.key
      · rw [if_pos hk] at h
        simp only [Option.some.injEq, Prod.mk.injEq] at h
        obtain ⟨rfl, rfl⟩ := h
        exact ⟨m, hm, rfl, rfl, rfl, Or.inr ⟨v, hv, hk, rfl, rfl, rfl⟩⟩
      · rw [if_neg hk] at h
        exact ih _ (lt_of_le_of_lt Nat.and_le_right hmask) h

/-- After a returning window loop of `insert_replace`, the window loop of `find` run over
the same window returns the inserted element. -/
theorem insert_replace_loop_find {s s1 : IntrusiveHashMapHolder} {e : Elem} {r : Option Elem}
    (hmask : s.hash_mask < s.values.length) :
    ∀ n m, m < s.values.length → insert_replace_loop s e n m = some (r, s1) →
      find_loop s1.values s.hash_mask e.key n m = some e := by
  intro n
  induction n with
  | zero =>
    intro m _ h
    simp [insert_replace_loop] at h
  | succ n ih =>
    intro m hm h
    have hspec := insert_replace_loop_some hmask (n + 1) m hm h
    unfold insert_replace_loop at h
    unfold find_loop
    cases hv : slot s.values m with
    | none =>
      rw [hv] at h
      simp only [Option.some.injEq, Prod.mk.injEq] at h
      obtain ⟨rfl, rfl⟩ := h
      simp only
      rw [slot_set_self _ _ _ hm]
      simp
    | some v =>
      rw [hv] at h
      simp only at h
      by_cases hk : v.key = e.key
      · rw [if_pos hk] at h
        simp only [Option.some.injEq, Prod.mk.injEq] at h
        obtain ⟨rfl, rfl⟩ := h
        simp only
        rw [slot_set_self _ _ _ hm]
        simp
      · rw [if_neg hk] at h
        obtain ⟨p, _, hp, _, _, hcase⟩ := hspec
        have hpm : p ≠ m := by
          rintro rfl
          rcases hcase with ⟨h0, _⟩ | ⟨v2, h0, hk2, _⟩
          · rw [hv] at h0
            cases h0
          · rw [hv] at h0
            cases h0
            exact hk hk2
        rw [hp, slot_set_other _ _ _ _ hpm, hv]
        simp only [if_neg hk]
        rw [← hp]
        exact ih _ (lt_of_le_of_lt Nat.and_le_right hmask) h

/-- A window loop of `insert_replace` that falls through met only occupied slots. -/
theorem insert_replace_loop_none {s : IntrusiveHashMapHolder} {e : Elem} {k : Nat}
    (hmask : s.hash_mask = 2 ^ k - 1) :
    ∀ n m, m < 2 ^ k → insert_replace_loop s e n m = none →
      ∀ t, t < n → slot s.values ((m + t) % 2 ^ k) ≠ none := by
  intro n
  induction n with
  | zero =>
    intro m _ _ t ht
    omega
  | succ n ih =>
    intro m hm h t ht
    unfold insert_replace_loop at h
    cases hv : slot s.values m with
    | none =>
      rw [hv] at h
      cases h
    | some v =>
      rw [hv] at h
      simp only at h
      by_cases hk : v.key = e.key
      · rw [if_pos hk] at h
        cases h
      · rw [if_neg hk, hmask, and_mask] at h
        cases t with
        | zero =>
          rw [Nat.add_zero, Nat.mod_eq_of_lt hm, hv]
          simp
        | succ t =>
          have := ih _ (Nat.mod_lt _ (Nat.two_pow_pos k)) h t (by omega)
          rwa [probe_next] at this

/-- The window loop of `insert_replace` preserves the invariant. -/
theorem insert_replace_loop_inv {s s1 : IntrusiveHashMapHolder} {e : Elem} {r : Option Elem}
    (hinv : Inv s) (hne : s.values ≠ []) {n m : Nat} (hm : m < s.values.length)
    (h : insert_replace_loop s e n m = some (r, s1)) :
    Inv s1 ∧ s1.values ≠ [] := by
  obtain ⟨k, hk1, hk2, hk3, hk4⟩ := hinv.1.mask_lt hne
  have hpos := Nat.two_pow_pos k
  have hmask : s.hash_mask < s.values.length := by
    rw [hk1, hk2]
    omega
  obtain ⟨p, hp, hvals, hm1, hl1, hcase⟩ := insert_replace_loop_some hmask n m hm h
  have hlen : s1.values.length = s.values.length := by
    rw [hvals]
    simp
  have hne1 : s1.values ≠ [] := by
    intro hc
    rw [hc] at hlen
    simp at hlen
    omega
  have hshape : Shape s1 := by
    rcases hinv.1 with ⟨h0, _, _⟩ | ⟨j, h1, h2, h3⟩
    · exact absurd h0 hne
    · exact Or.inr ⟨j, by rw [hlen, h1], by rw [hl1, h2], by rw [hm1, h3]⟩
  refine ⟨⟨hshape, ?_, ?_⟩, hne1⟩
  · rcases hcase with ⟨h0, _, hl, _⟩ | ⟨v, h0, _, _, hl, _⟩
    · rw [hvals, hl]
      exact (reduceOption_set_some_of_none _ _ _ hp h0).trans (List.Perm.cons e hinv.2.1)
    · rw [hvals, hl]
      exact (reduceOption_set_some_of_some _ _ _ _ h0).trans
        (List.Perm.cons e (hinv.2.1.erase v))
  · rcases hcase with ⟨_, _, hl, hc⟩ | ⟨v, h0, _, _, hl, hc⟩
    · rw [hc, hl, hinv.2.2]
      simp
    · have hv : v ∈ s.list :=
        hinv.2.1.subset (List.reduceOption_mem_iff.mpr (mem_of_slot_some h0))
      rw [hc, hl, hinv.2.2, List.length_cons, List.length_erase_of_mem hv]
      have := List.length_pos_of_mem hv
      omega

/-! ### `insert_replace` -/

theorem isEmpty_eq_false {l : List (Option Elem)} (h : l ≠ []) : l.isEmpty = false := by
  cases l with
  | nil => exact absurd rfl h
  | cons a l => rfl

theorem insert_replace_succ_of_ne {s : IntrusiveHashMapHolder} (e : Elem) (n : Nat)
    (hne : s.values ≠ []) :
    insert_replace (n + 1) s e =
      match insert_replace_loop s e s.load_count (e.key &&& s.hash_mask) with
      | some r => some r
      | none =>
        match grow s with
        | some s2 => insert_replace n s2 e
        | none => none := by
  simp only [insert_replace, isEmpty_eq_false hne, Bool.false_eq_true, if_false]

theorem insert_replace_succ_of_empty {s s0 : IntrusiveHashMapHolder} (e : Elem) (n : Nat)
    (he : s.values = []) (hg : grow s = some s0) (hne : s0.values ≠ []) :
    insert_replace (n + 1) s e = insert_replace (n + 1) s0 e := by
  rw [insert_replace_succ_of_ne e n hne]
  simp only [insert_replace, he, List.isEmpty_nil, if_true, hg]

theorem Inv.start_lt {s : IntrusiveHashMapHolder} (h : Inv s) (hne : s.values ≠ []) (x : Nat) :
    x &&& s.hash_mask < s.values.length ∧ s.hash_mask < s.values.length := by
  obtain ⟨k, hk1, hk2, _, _⟩ := h.1.mask_lt hne
  have hpos := Nat.two_pow_pos k
  constructor
  · rw [hk1, hk2]
    exact and_mask_lt x k
  · rw [hk1, hk2]
    omega

/-- A returning `insert_replace` is a returning window loop run on a state `s0` obtained
from `s` by zero or more calls of `grow`: `s0` has the list and count of `s`, a non-empty
slot array, and satisfies the invariant. -/
theorem insert_replace_some {e : Elem} {r : Option Elem} {s1 : IntrusiveHashMapHolder} :
    ∀ n s, Inv s → insert_replace n s e = some (r, s1) →
      ∃ s0, Inv s0 ∧ s0.values ≠ [] ∧ s0.list = s.list ∧ s0.count = s.count ∧
        insert_replace_loop s0 e s0.load_count (e.key &&& s0.hash_mask) = some (r, s1) := by
  have key : ∀ n s, Inv s → s.values ≠ [] → insert_replace n s e = some (r, s1) →
      ∃ s0, Inv s0 ∧ s0.values ≠ [] ∧ s0.list = s.list ∧ s0.count = s.count ∧
        insert_replace_loop s0 e s0.load_count (e.key &&& s0.hash_mask) = some (r, s1) := by
    intro n
    induction n with
    | zero =>
      intro s _ _ h
      simp [insert_replace] at h
    | succ n ih =>
      intro s hinv hne h
      rw [insert_replace_succ_of_ne e n hne] at h
      cases hloop : insert_replace_loop s e s.load_count (e.key &&& s.hash_mask) with
      | some r1 =>
        rw [hloop] at h
        simp only [Option.some.injEq] at h
        subst h
        exact ⟨s, hinv, hne, rfl, rfl, hloop⟩
      | none =>
        rw [hloop] at h
        obtain ⟨s2, hg, hinv2, hl2, hc2, hne2, _⟩ := grow_some hinv
        rw [hg] at h
        obtain ⟨s0, h1, h2, h3, h4, h5⟩ := ih s2 hinv2 hne2 h
        exact ⟨s0, h1, h2, h3.trans hl2, h4.trans hc2, h5⟩
  intro n s hinv h
  by_cases hne : s.values = []
  · cases n with
    | zero => simp [insert_replace] at h
    | succ n =>
      obtain ⟨s2, hg, hinv2, hl2, hc2, hne2, _⟩ := grow_some hinv
      rw [insert_replace_succ_of_empty e n hne hg hne2] at h
      obtain ⟨s0, h1, h2, h3, h4, h5⟩ := key (n + 1) s2 hinv2 hne2 h
      exact ⟨s0, h1, h2, h3.trans hl2, h4.trans hc2, h5⟩
  · exact key n s hinv hne h

/-- `insert_replace` preserves the invariant. -/
theorem insert_replace_inv {e : Elem} {r : Option Elem} {s s1 : IntrusiveHashMapHolder}
    {n : Nat} (hinv : Inv s) (h : insert_replace n s e = some (r, s1)) :
    Inv s1 ∧ s1.values ≠ [] := by
  obtain ⟨s0, h1, h2, _, _, h5⟩ := insert_replace_some n s hinv h
  exact insert_replace_loop_inv h1 h2 (h1.start_lt h2 _).1 h5

/-- After `insert_replace` of `e`, `find` returns `e` for its key. -/
theorem insert_replace_find_of_inv {e : Elem} {r : Option Elem}
    {s s1 : IntrusiveHashMapHolder} {n : Nat} (hinv : Inv s)
    (h : insert_replace n s e = some (r, s1)) : find s1 e.key = some e := by
  obtain ⟨s0, h1, h2, _, _, h5⟩ := insert_replace_some n s hinv h
  obtain ⟨hstart, hmask⟩ := h1.start_lt h2 e.key
  have hne1 := (insert_replace_loop_inv h1 h2 hstart h5).2
  obtain ⟨p, _, _, hm1, hl1, _⟩ := insert_replace_loop_some hmask _ _ hstart h5
  have hf := insert_replace_loop_find hmask _ _ hstart h5
  unfold find
  rw [isEmpty_eq_false hne1, hm1, hl1]
  simpa using hf

/-- In a state that satisfies the invariant the window loop of `insert_replace` cannot
fall through once the window is longer than the list. -/
theorem insert_replace_loop_ne_none {s : IntrusiveHashMapHolder} (e : Elem) (hinv : Inv s)
    (hne : s.values ≠ []) (hlt : s.list.length < s.load_count) :
    insert_replace_loop s e s.load_count (e.key &&& s.hash_mask) ≠ none := by
  intro hc
  obtain ⟨k, hk1, hk2, hk3, _⟩ := hinv.1.mask_lt hne
  have hstart : e.key &&& s.hash_mask < 2 ^ k := by
    rw [hk2]
    exact and_mask_lt _ k
  have h1 := insert_replace_loop_none hk2 _ _ hstart hc
  have h2 := window_le_reduceOption s.values (2 ^ k) _ s.load_count hk3 h1
  rw [hinv.2.1.length_eq] at h2
  omega

/-- `insert_replace` returns from every state that satisfies the invariant: the
grow-and-retry recursion is at most `list.length + 2` deep. -/
theorem insert_replace_terminates_of_inv (e : Elem) {s : IntrusiveHashMapHolder}
    (hinv : Inv s) : ∃ r s1, insert_replace (s.list.length + 2) s e = some (r, s1) := by
  have key : ∀ d s, Inv s → s.values ≠ [] → s.list.length + 1 - s.load_count ≤ d →
      ∃ r s1, insert_replace (d + 1) s e = some (r, s1) := by
    intro d
    induction d with
    | zero =>
      intro s hinv hne hd
      rw [insert_replace_succ_of_ne e 0 hne]
      cases hloop : insert_replace_loop s e s.load_count (e.key &&& s.hash_mask) with
      | some r1 => exact ⟨r1.1, r1.2, rfl⟩
      | none => exact absurd hloop (insert_replace_loop_ne_none e hinv hne (by omega))
    | succ d ih =>
      intro s hinv hne hd
      rw [insert_replace_succ_of_ne e (d + 1) hne]
      cases hloop : insert_replace_loop s e s.load_count (e.key &&& s.hash_mask) with
      | some r1 => exact ⟨r1.1, r1.2, rfl⟩
      | none =>
        obtain ⟨s2, hg, hinv2, hl2, _, hne2, hlc⟩ := grow_some hinv
        rw [isEmpty_eq_false hne] at hlc
        simp only [Bool.false_eq_true, if_false] at hlc
        simp only [hg]
        have hle : s.load_count ≤ s.list.length := by
          by_contra hcon
          exact insert_replace_loop_ne_none e hinv hne (by omega) hloop
        exact ih s2 hinv2 hne2 (by rw [hl2, hlc]; omega)
  by_cases hne : s.values = []
  · obtain ⟨s2, hg, hinv2, hl2, _, hne2, _⟩ := grow_some hinv
    rw [insert_replace_succ_of_empty e _ hne hg hne2, ← hl2]
    exact key (s2.list.length + 1) s2 hinv2 hne2 (by omega)
  · exact key (s.list.length + 1) s hinv hne (by omega)

/-! ### `insert_yield` -/

/-- What a returning window loop of `insert_yield` did. -/
theorem insert_yield_loop_some {s : IntrusiveHashMapHolder} {e : Elem} {r : YieldResult}
    (hmask : s.hash_mask < s.values.length) :
    ∀ n m, m < s.values.length → insert_yield_loop s e n m = some r →
      ∃ p, p < s.values.length ∧
        ((slot s.values p = none ∧ r.ret = none ∧ r.value = e ∧
            r.state.values = s.values.set p (some e) ∧ r.state.list = e :: s.list ∧
            r.state.count = s.count + 1 ∧ r.state.hash_mask = s.hash_mask ∧
            r.state.load_count = s.load_count) ∨
         (∃ v, slot s.values p = some v ∧ v.key = e.key ∧ r.ret = some e ∧ r.value = v ∧
            r.state = s)) := by
  intro n
  induction n with
  | zero =>
    intro m _ h
    simp [insert_yield_loop] at h
  | succ n ih =>
    intro m hm h
    unfold insert_yield_loop at h
    cases hv : slot s.values m with
    | none =>
      rw [hv] at h
      simp only [Option.some.injEq] at h
      subst h
      exact ⟨m, hm, Or.inl ⟨hv, rfl, rfl, rfl, rfl, rfl, rfl, rfl⟩⟩
    | some v =>
      rw [hv] at h
      simp only at h
      by_cases hk : v.key = e.key
      · rw [if_pos hk] at h
        simp only [Option.some.injEq] at h
        subst h
        exact ⟨m, hm, Or.inr ⟨v, hv, hk, rfl, rfl, rfl⟩⟩
      · rw [if_neg hk] at h
        exact ih _ (lt_of_le_of_lt Nat.and_le_right hmask) h

/-- The window loop of `insert_yield` preserves the invariant. -/
theorem insert_yield_loop_inv {s : IntrusiveHashMapHolder} {e : Elem} {r : YieldResult}
    (hinv : Inv s) (hne : s.values ≠ []) {n m : Nat} (hm : m < s.values.length)
    (h : insert_yield_loop s e n m = some r) : Inv r.state ∧ r.state.values ≠ [] := by
  obtain ⟨hstart, hmask⟩ := hinv.start_lt hne 0
  obtain ⟨p, hp, hcase⟩ := insert_yield_loop_some hmask n m hm h
  rcases hcase with ⟨h0, _, _, hvals, hl, hc, hm1, hl1⟩ | ⟨v, _, _, _, _, hst⟩
  · have hlen : r.state.values.length = s.values.length := by
      rw [hvals]
      simp
    have hne1 : r.state.values ≠ [] := by
      intro hc
      rw [hc] at hlen
      simp at hlen
      omega
    have hshape : Shape r.state := by
      rcases hinv.1 with ⟨h0, _, _⟩ | ⟨j, h1, h2, h3⟩
      · exact absurd h0 hne
      · exact Or.inr ⟨j, by rw [hlen, h1], by rw [hl1, h2], by rw [hm1, h3]⟩
    refine ⟨⟨hshape, ?_, ?_⟩, hne1⟩
    · rw [hvals, hl]
      exact (reduceOption_set_some_of_none _ _ _ hp h0).trans (List.Perm.cons e hinv.2.1)
    · rw [hc, hl, hinv.2.2]
      simp
  · rw [hst]
    exact ⟨hinv, hne⟩

theorem insert_yield_succ_of_ne {s : IntrusiveHashMapHolder} (e : Elem) (n : Nat)
    (hne : s.values ≠ []) :
    insert_yield (n + 1) s e =
      match insert_yield_loop s e s.load_count (e.key &&& s.hash_mask) with
      | some r => some r
      | none =>
        match grow s with
        | some s2 => insert_yield n s2 e
        | none => none := by
  simp only [insert_yield, isEmpty_eq_false hne, Bool.false_eq_true, if_false]

theorem insert_yield_succ_of_empty {s s0 : IntrusiveHashMapHolder} (e : Elem) (n : Nat)
    (he : s.values = []) (hg : grow s = some s0) (hne : s0.values ≠ []) :
    insert_yield (n + 1) s e = insert_yield (n + 1) s0 e := by
  rw [insert_yield_succ_of_ne e n hne]
  simp only [insert_yield, he, List.isEmpty_nil, if_true, hg]

/-- A returning `insert_yield` is a returning window loop run on a state obtained from `s`
by zero or more calls of `grow`. -/
theorem insert_yield_some {e : Elem} {r : YieldResult} :
    ∀ n s, Inv s → insert_yield n s e = some r →
      ∃ s0, Inv s0 ∧ s0.values ≠ [] ∧ s0.list = s.list ∧ s0.count = s.count ∧
        insert_yield_loop s0 e s0.load_count (e.key &&& s0.hash_mask) = some r := by
  have key : ∀ n s, Inv s → s.values ≠ [] → insert_yield n s e = some r →
      ∃ s0, Inv s0 ∧ s0.values ≠ [] ∧ s0.list = s.list ∧ s0.count = s.count ∧
        insert_yield_loop s0 e s0.load_count (e.key &&& s0.hash_mask) = some r := by
    intro n
    induction n with
    | zero =>
      intro s _ _ h
      simp [insert_yield] at h
    | succ n ih =>
      intro s hinv hne h
      rw [insert_yield_succ_of_ne e n hne] at h
      cases hloop : insert_yield_loop s e s.load_count (e.key &&& s.hash_mask) with
      | some r1 =>
        rw [hloop] at h
        simp only [Option.some.injEq] at h
        subst h
        exact ⟨s, hinv, hne, rfl, rfl, hloop⟩
      | none =>
        rw [hloop] at h
        obtain ⟨s2, hg, hinv2, hl2, hc2, hne2, _⟩ := grow_some hinv
        rw [hg] at h
        obtain ⟨s0, h1, h2, h3, h4, h5⟩ := ih s2 hinv2 hne2 h
        exact ⟨s0, h1, h2, h3.trans hl2, h4.trans hc2, h5⟩
  intro n s hinv h
  by_cases hne : s.values = []
  · cases n with
    | zero => simp [insert_yield] at h
    | succ n =>
      obtain ⟨s2, hg, hinv2, hl2, hc2, hne2, _⟩ := grow_some hinv
      rw [insert_yield_succ_of_empty e n hne hg hne2] at h
      obtain ⟨s0, h1, h2, h3, h4, h5⟩ := key (n + 1) s2 hinv2 hne2 h
      exact ⟨s0, h1, h2, h3.trans hl2, h4.trans hc2, h5⟩
  · exact key n s hinv hne h

/-- `insert_yield` preserves the invariant. -/
theorem insert_yield_inv {e : Elem} {r : YieldResult} {s : IntrusiveHashMapHolder}
    {n : Nat} (hinv : Inv s) (h : insert_yield n s e = some r) : Inv r.state := by
  obtain ⟨s0, h1, h2, _, _, h5⟩ := insert_yield_some n s hinv h
  exact (insert_yield_loop_inv h1 h2 (h1.start_lt h2 _).1 h5).1

/-! ### `erase` -/

/-- What a returning `erase` loop did: nothing, or it emptied one slot that held the
erased element itself. -/
theorem erase_loop_some {s s1 : IntrusiveHashMapHolder} {e : Elem} :
    ∀ n m, erase_loop s e n m = some s1 →
      s1 = s ∨ ∃ p, slot s.values p = some e ∧ 0 < s.count ∧
        s1 = { s with values := s.values.set p none, list := s.list.erase e,
                      count := s.count - 1 } := by
  intro n
  induction n with
  | zero =>
    intro m h
    simp only [erase_loop, Option.some.injEq] at h
    exact Or.inl h.symm
  | succ n ih =>
    intro m h
    unfold erase_loop at h
    cases hv : slot s.values m with
    | none =>
      rw [hv] at h
      exact ih _ h
    | some v =>
      rw [hv] at h
      simp only at h
      by_cases hk : v.key = e.key
      · rw [if_pos hk] at h
        by_cases ha : v = e ∧ 0 < s.count
        · rw [if_pos ha] at h
          simp only [Option.some.injEq] at h
          obtain ⟨rfl, hc⟩ := ha
          exact Or.inr ⟨m, hv, hc, h.symm⟩
        · rw [if_neg ha] at h
          cases h
      · rw [if_neg hk] at h
        exact ih _ h

/-- `erase` preserves the invariant. -/
theorem erase_inv {s s1 : IntrusiveHashMapHolder} {e : Elem} (hinv : Inv s)
    (h : erase s e = some s1) : Inv s1 := by
  rcases erase_loop_some _ _ h with rfl | ⟨p, hp, hc, rfl⟩
  · exact hinv
  · have hpl := lt_of_slot_some hp
    have hmem : e ∈ s.list :=
      hinv.2.1.subset (List.reduceOption_mem_iff.mpr (mem_of_slot_some hp))
    refine ⟨?_, ?_, ?_⟩
    · rcases hinv.1 with ⟨h0, _, _⟩ | ⟨j, h1, h2, h3⟩
      · rw [h0] at hpl
        simp at hpl
      · exact Or.inr ⟨j, by simpa using h1, h2, h3⟩
    · exact (reduceOption_set_none_of_some _ _ _ hp).trans (hinv.2.1.erase e)
    · show s.count - 1 = (s.list.erase e).length
      rw [List.length_erase_of_mem hmem, hinv.2.2]

/-! ### Reachable states -/

theorem inv_empty : Inv empty :=
  ⟨Or.inl ⟨rfl, rfl, rfl⟩, List.Perm.refl _, rfl⟩

/-- Every reachable state satisfies the invariant. -/
theorem Reachable.inv {s : IntrusiveHashMapHolder} (h : Reachable s) : Inv s := by
  induction h with
  | init => exact inv_empty
  | step_insert_replace fuel _ _ hstep ih => exact (insert_replace_inv ih hstep).1
  | step_insert_yield fuel _ _ hstep ih => exact insert_yield_inv ih hstep
  | step_erase _ _ hstep ih => exact erase_inv ih hstep
  | step_clear _ _ => exact inv_empty

/-- Every state produced by a client program from a reachable state is reachable. -/
theorem reachable_run_calls : ∀ (cs : List Call) (s s1 : IntrusiveHashMapHolder),
    Reachable s → run_calls s cs = some s1 → Reachable s1 := by
  intro cs
  induction cs with
  | nil =>
    intro s s1 hs h
    simp only [run_calls, Option.some.injEq] at h
    exact h ▸ hs
  | cons c cs ih =>
    intro s s1 hs h
    unfold run_calls at h
    cases hc : apply_call s c with
    | none =>
      rw [hc] at h
      cases h
    | some s2 =>
      rw [hc] at h
      refine ih s2 s1 ?_ h
      cases c with
      | insert_replace e =>
        simp only [apply_call] at hc
        split at hc
        · rename_i hf
          split at hc
          · rename_i r s3 heq
            simp only [Option.some.injEq] at hc
            exact hc ▸ Reachable.step_insert_replace _ hs hf heq
          · cases hc
        · cases hc
      | insert_yield e =>
        simp only [apply_call] at hc
        split at hc
        · rename_i hf
          split at hc
          · rename_i r heq
            simp only [Option.some.injEq] at hc
            exact hc ▸ Reachable.step_insert_yield _ hs hf heq
          · cases hc
        · cases hc
      | erase e =>
        simp only [apply_call] at hc
        split at hc
        · rename_i hin
          exact Reachable.step_erase hs hin hc
        · cases hc
      | clear =>
        simp only [apply_call, Option.some.injEq] at hc
        exact hc ▸ Reachable.step_clear hs

theorem run_crowded : run_calls empty crowded_calls = some crowded_state := by decide

theorem run_overflowed :
    run_calls empty (crowded_calls ++ [Call.insert_replace ⟨1016, 16⟩]) =
      some overflowed_state := by decide

theorem run_pair :
    run_calls empty [Call.insert_replace ⟨1000, 0⟩, Call.insert_replace ⟨1016, 16⟩] =
      some pair_state := by decide

theorem run_hole :
    run_calls empty [Call.insert_replace ⟨1000, 0⟩, Call.insert_replace ⟨1016, 16⟩,
      Call.erase ⟨1000, 0⟩] = some hole_state := by decide

theorem run_twin :
    run_calls empty [Call.insert_replace ⟨1000, 0⟩, Call.insert_replace ⟨1016, 16⟩,
      Call.erase ⟨1000, 0⟩, Call.insert_replace ⟨2016, 16⟩] = some twin_state := by decide

/-! ### Lemmas for the replace law and the frame property of `erase` -/

/-- A second `insert_replace` with the same key walks the same window and replaces the
element written by the first one. -/
theorem insert_replace_loop_again {s s1 : IntrusiveHashMapHolder} {e1 e2 : Elem}
    {r : Option Elem} (hmask : s.hash_mask < s.values.length) (hk : e1.key = e2.key) :
    ∀ n m, m < s.values.length → insert_replace_loop s e1 n m = some (r, s1) →
      ∃ p, insert_replace_loop s1 e2 n m =
        some (some e1, { s1 with values := s1.values.set p (some e2),
                                 list := e2 :: s1.list.erase e1 }) := by
  intro n
  induction n with
  | zero =>
    intro m _ h
    simp [insert_replace_loop] at h
  | succ n ih =>
    intro m hm h
    have hspec := insert_replace_loop_some hmask (n + 1) m hm h
    unfold insert_replace_loop at h
    cases hv : slot s.values m with
    | none =>
      rw [hv] at h
      simp only [Option.some.injEq, Prod.mk.injEq] at h
      obtain ⟨rfl, rfl⟩ := h
      refine ⟨m, ?_⟩
      unfold insert_replace_loop
      simp only
      rw [slot_set_self _ _ _ hm]
      simp [hk, IntrusiveList.insert_front, IntrusiveList.erase_node]
    | some v =>
      rw [hv] at h
      simp only at h
      by_cases hkv : v.key = e1.key
      · rw [if_pos hkv] at h
        simp only [Option.some.injEq, Prod.mk.injEq] at h
        obtain ⟨rfl, rfl⟩ := h
        refine ⟨m, ?_⟩
        unfold insert_replace_loop
        simp only
        rw [slot_set_self _ _ _ hm]
        simp [hk, IntrusiveList.insert_front, IntrusiveList.erase_node]
      · rw [if_neg hkv] at h
        obtain ⟨p, _, hp, hm1, _, hcase⟩ := hspec
        have hpm : p ≠ m := by
          rintro rfl
          rcases hcase with ⟨h0, _⟩ | ⟨v2, h0, hk2, _⟩
          · rw [hv] at h0
            cases h0
          · rw [hv] at h0
            cases h0
            exact hkv hk2
        obtain ⟨q, hq⟩ := ih _ (lt_of_le_of_lt Nat.and_le_right hmask) h
        refine ⟨q, ?_⟩
        unfold insert_replace_loop
        have hslot : slot s1.values m = some v := by
          rw [hp, slot_set_other _ _ _ _ hpm, hv]
        rw [hslot]
        simp only
        rw [if_neg (by rw [← hk]; exact hkv), hm1]
        rw [hm1] at hq
        exact hq

/-- Emptying a slot that holds an element with another key does not change the window
loop of `find`. -/
theorem find_loop_set_none (l : List (Option Elem)) (mask k p : Nat) (v : Elem)
    (hp : slot l p = some v) (hk : v.key ≠ k) :
    ∀ n m, find_loop (l.set p none) mask k n m = find_loop l mask k n m := by
  intro n
  induction n with
  | zero =>
    intro m
    rfl
  | succ n ih =>
    intro m
    unfold find_loop
    by_cases hpm : p = m
    · subst hpm
      rw [slot_set_self _ _ _ (lt_of_slot_some hp), hp]
      simp only [if_neg hk]
      exact ih _
    · rw [slot_set_other _ _ _ _ hpm]
      cases slot l m with
      | none => exact ih _
      | some w =>
        simp only
        split
        · rfl
        · exact ih _

/-! ### The claims about the holder -/

/-- C1 (defect of `grow`).  The claim: `find(k)` is non-null exactly when an element with
key `k` was inserted and not erased or replaced since.  The code at the client program
`insert_replace` of fresh elements with keys `0, 32, 64, 96, 1, 2, 16`: the last call grows
the table to 32 slots with a window of 5, the unbounded probe of `insert_inner` puts the
element with key `0` into slot `5`, outside its window, and `find(0)` returns null although
that element is in the list and in a slot and was never erased or replaced. -/
theorem find_none_for_inserted_key :
    run_calls empty (crowded_calls ++ [Call.insert_replace ⟨1016, 16⟩]) =
      some overflowed_state ∧
    Reachable overflowed_state ∧
    InTable overflowed_state ⟨1000, 0⟩ ∧
    find overflowed_state 0 = none :=
  ⟨run_overflowed, reachable_run_calls _ _ _ Reachable.init run_overflowed, by decide,
    by decide⟩

/-- C2.  Insert-find round trip: from every reachable state `insert_replace e` returns
(a retry depth of `list.length + 2` is enough), and whenever it returns, `find` of the key
of `e` returns exactly `e`.  Freshness of `e` is not needed. -/
theorem insert_replace_find_roundtrip (s : IntrusiveHashMapHolder) (e : Elem)
    (hs : Reachable s) :
    (∃ r s1, insert_replace (s.list.length + 2) s e = some (r, s1)) ∧
    ∀ n r s1, insert_replace n s e = some (r, s1) → find s1 e.key = some e :=
  ⟨insert_replace_terminates_of_inv e hs.inv,
    fun _ _ _ h => insert_replace_find_of_inv hs.inv h⟩

/-- Witness for C2: the 16-slot table `crowded_state`, into which the element with key `16`
is inserted after one growth. -/
theorem insert_replace_find_roundtrip_witness :
    Reachable crowded_state ∧
    ((∃ r s1, insert_replace (crowded_state.list.length + 2) crowded_state ⟨1016, 16⟩ =
        some (r, s1)) ∧
     ∀ n r s1, insert_replace n crowded_state ⟨1016, 16⟩ = some (r, s1) →
        find s1 (Elem.mk 1016 16).key = some ⟨1016, 16⟩) :=
  ⟨reachable_run_calls _ _ _ Reachable.init run_crowded,
    insert_replace_find_roundtrip crowded_state ⟨1016, 16⟩
      (reachable_run_calls _ _ _ Reachable.init run_crowded)⟩

/-- C3 (defect of `insert_yield`).  The claim: `insert_yield` of a fresh element whose key
is present returns the new element, hands the old one to the caller and changes nothing.
The code at the state reached by `insert_replace` of keys `0` and `16` followed by `erase`
of the element with key `0`: key `16` is present (`find` returns the element at address
`1016`), yet `insert_yield` of the fresh element at address `2016` with key `16` stops at
the empty slot `0` in front of it, inserts the new element, returns null and leaves the
caller's pointer alone; the slots, the list and `count` change and `find(16)` now returns
the new element.  The owning map's `emplace_yield` accordingly returns the new element
and frees nothing. -/
theorem insert_yield_displaces_present_key :
    Reachable hole_state ∧
    find hole_state 16 = some ⟨1016, 16⟩ ∧
    Fresh hole_state ⟨2016, 16⟩ ∧
    (∀ n, insert_yield (n + 1) hole_state ⟨2016, 16⟩ =
      some { ret := none, value := ⟨2016, 16⟩, state := twin_state }) ∧
    twin_state.values ≠ hole_state.values ∧
    twin_state.list ≠ hole_state.list ∧
    twin_state.count ≠ hole_state.count ∧
    find twin_state 16 = some ⟨2016, 16⟩ ∧
    (∀ n, IntrusiveHashMap.emplace_yield (n + 1)
        { hashmap := hole_state, pool := { live := [1016] } } 16 2016 =
      some (⟨2016, 16⟩, { hashmap := twin_state, pool := { live := [2016, 1016] } })) :=
  ⟨reachable_run_calls _ _ _ Reachable.init run_hole, by decide, by decide,
    fun _ => rfl, by decide, by decide, by decide, by decide, fun _ => rfl⟩

/-- C4.  Replace law: from every reachable state, for a fresh element `e1` and another
element `e2` with the same key, `insert_replace e1` returns, and the following
`insert_replace e2` returns `e1`; afterwards `find` of the key returns `e2`, `e2` is the
first element of the list, `e1` is not in the list, `count` is what it was after the first
call, and if the list was empty before the first call it now contains `e2` only. -/
theorem insert_replace_twice (s : IntrusiveHashMapHolder) (e1 e2 : Elem)
    (hs : Reachable s) (hf : Fresh s e1) (hne : e1.ptr ≠ e2.ptr) (hk : e1.key = e2.key) :
    (∃ r1 s1, insert_replace (s.list.length + 2) s e1 = some (r1, s1)) ∧
    ∀ n r1 s1, insert_replace n s e1 = some (r1, s1) →
      ∃ s2, (∀ m, insert_replace (m + 1) s1 e2 = some (some e1, s2)) ∧
        find s2 e2.key = some e2 ∧
        s2.list.head? = some e2 ∧
        e1 ∉ s2.list ∧
        s2.count = s1.count ∧
        (s.list = [] → s2.list = [e2]) := by
  refine ⟨insert_replace_terminates_of_inv e1 hs.inv, ?_⟩
  intro n r1 s1 h
  obtain ⟨s0, hinv0, hne0, hl0, _, hloop⟩ := insert_replace_some n s hs.inv h
  obtain ⟨hstart, hmask⟩ := hinv0.start_lt hne0 e1.key
  obtain ⟨hinv1, hne1⟩ := insert_replace_loop_inv hinv0 hne0 hstart hloop
  obtain ⟨p, _, _, hm1, hlc1, hcase⟩ := insert_replace_loop_some hmask _ _ hstart hloop
  obtain ⟨q, hq⟩ := insert_replace_loop_again hmask hk _ _ hstart hloop
  have hstep : ∀ m, insert_replace (m + 1) s1 e2 =
      some (some e1, { s1 with values := s1.values.set q (some e2),
                               list := e2 :: s1.list.erase e1 }) := by
    intro m
    have hq2 := hq
    rw [← hm1, ← hlc1, hk] at hq2
    rw [insert_replace_succ_of_ne e2 m hne1, hq2]
  have hnot : e1 ∉ s.list := fun hmem => hf.1 e1 hmem rfl
  have hlist : ∃ l, s1.list = e1 :: l ∧ e1 ∉ l ∧ (s.list = [] → l = []) := by
    rcases hcase with ⟨_, _, hl, _⟩ | ⟨v, _, _, _, hl, _⟩
    · exact ⟨s0.list, hl, hl0 ▸ hnot, fun h0 => by rw [hl0, h0]⟩
    · refine ⟨s0.list.erase v, hl, ?_, fun h0 => by rw [hl0, h0]; rfl⟩
      intro hmem
      exact hnot (hl0 ▸ List.mem_of_mem_erase hmem)
  obtain ⟨l, hl, hl1, hl2⟩ := hlist
  have he12 : e1 ≠ e2 := fun h12 => hne (by rw [h12])
  refine ⟨_, hstep, insert_replace_find_of_inv hinv1 (hstep 0), rfl, ?_, rfl, ?_⟩
  · show e1 ∉ e2 :: s1.list.erase e1
    rw [hl, List.erase_cons_head]
    simp only [List.mem_cons, not_or]
    exact ⟨he12, hl1⟩
  · intro h0
    show e2 :: s1.list.erase e1 = [e2]
    rw [hl, List.erase_cons_head, hl2 h0]

/-- Witness for C4: two elements with key `16` inserted one after the other into
`pair_state`, where key `16` is already present. -/
theorem insert_replace_twice_witness :
    Reachable pair_state ∧ Fresh pair_state ⟨3000, 16⟩ ∧
    (Elem.mk 3000 16).ptr ≠ (Elem.mk 3001 16).ptr ∧
    (Elem.mk 3000 16).key = (Elem.mk 3001 16).key ∧
    ((∃ r1 s1, insert_replace (pair_state.list.length + 2) pair_state ⟨3000, 16⟩ =
        some (r1, s1)) ∧
     ∀ n r1 s1, insert_replace n pair_state ⟨3000, 16⟩ = some (r1, s1) →
      ∃ s2, (∀ m, insert_replace (m + 1) s1 ⟨3001, 16⟩ = some (some ⟨3000, 16⟩, s2)) ∧
        find s2 (Elem.mk 3001 16).key = some ⟨3001, 16⟩ ∧
        s2.list.head? = some ⟨3001, 16⟩ ∧
        (Elem.mk 3000 16) ∉ s2.list ∧
        s2.count = s1.count ∧
        (pair_state.list = [] → s2.list = [⟨3001, 16⟩])) :=
  ⟨reachable_run_calls _ _ _ Reachable.init run_pair, by decide, by decide, by decide,
    insert_replace_twice pair_state ⟨3000, 16⟩ ⟨3001, 16⟩
      (reachable_run_calls _ _ _ Reachable.init run_pair) (by decide) (by decide)
      (by decide)⟩

/-- C5 (defect of the inserts).  The claim: after `erase(e)` of an element of the table,
`find(e.key)` returns none.  The code at the state reached by `insert_replace` of keys `0`
and `16`, `erase` of the element with key `0` and `insert_replace` of a second element with
key `16` (address `2016`): the insert stopped at the empty slot `0` without reaching the
old element with key `16` in slot `1`, so both are in the table; `erase` of the new
element returns, and `find(16)` then returns the old element. -/
theorem erase_leaves_key_findable :
    Reachable twin_state ∧
    InTable twin_state ⟨2016, 16⟩ ∧
    erase twin_state ⟨2016, 16⟩ = some hole_state ∧
    find hole_state (Elem.mk 2016 16).key = some ⟨1016, 16⟩ :=
  ⟨reachable_run_calls _ _ _ Reachable.init run_twin, by decide, by decide, by decide⟩

/-- C6.  Erase leaves other keys untouched: in every table state, when `erase e` returns,
`find` of every key other than the key of `e` returns what it returned before. -/
theorem erase_find_other_key (s s1 : IntrusiveHashMapHolder) (e : Elem) (k : Nat)
    (h : erase s e = some s1) (hk : k ≠ e.key) : find s1 k = find s k := by
  rcases erase_loop_some _ _ h with rfl | ⟨p, hp, _, rfl⟩
  · rfl
  · have hpl := lt_of_slot_some hp
    have hne : s.values ≠ [] := by
      intro hc
      rw [hc] at hpl
      simp at hpl
    have hne1 : s.values.set p none ≠ [] := by
      intro hc
      apply hne
      have := congrArg List.length hc
      simpa using this
    unfold find
    simp only
    rw [isEmpty_eq_false hne, isEmpty_eq_false hne1]
    simp only [Bool.false_eq_true, if_false]
    exact find_loop_set_none _ _ _ _ _ hp (fun hc => hk hc.symm) _ _

/-- Witness for C6: erasing the element with key `0` from `pair_state` leaves the result
of `find(16)`, whose element collided past the erased slot, unchanged. -/
theorem erase_find_other_key_witness :
    erase pair_state ⟨1000, 0⟩ = some hole_state ∧ 16 ≠ (Elem.mk 1000 0).key ∧
    find hole_state 16 = find pair_state 16 :=
  ⟨by decide, by decide,
    erase_find_other_key pair_state hole_state ⟨1000, 0⟩ 16 (by decide) (by decide)⟩

/-- C7 (defect of `grow`, the one behind C1).  The claim: an element inserted before a
growth is still returned by `find` under its key after the growth.  The code at
`crowded_state` (keys `0, 32, 64, 96, 1, 2` inserted): `find(0)` returns the element at
address `1000`; `insert_replace` of a fresh element with key `16` cannot finish without
growing, grows the table from 16 to 32 slots, and afterwards `find(0)` returns null. -/
theorem grow_loses_inserted_key :
    Reachable crowded_state ∧
    find crowded_state 0 = some ⟨1000, 0⟩ ∧
    Fresh crowded_state ⟨1016, 16⟩ ∧
    insert_replace_loop crowded_state ⟨1016, 16⟩ crowded_state.load_count
      (16 &&& crowded_state.hash_mask) = none ∧
    insert_replace 2 crowded_state ⟨1016, 16⟩ = some (none, overflowed_state) ∧
    crowded_state.values.length = 16 ∧
    overflowed_state.values.length = 32 ∧
    find overflowed_state 0 = none :=
  ⟨reachable_run_calls _ _ _ Reachable.init run_crowded, by decide, by decide, by decide,
    by decide, by decide, by decide, by decide⟩

/-- C8 (defect of `grow`, the one behind C1).  The claim: in every reachable state every
list element occupies exactly one slot, less than `load_count` steps after
`key & hash_mask`.  The code at `overflowed_state`: the element with key `0` is in slot `5`
of 32 while `load_count` is `5`. -/
theorem window_invariant_broken :
    Reachable overflowed_state ∧
    slot overflowed_state.values 5 = some ⟨1000, 0⟩ ∧
    overflowed_state.load_count = 5 ∧
    ¬ WindowInv overflowed_state := by
  refine ⟨reachable_run_calls _ _ _ Reachable.init run_overflowed, by decide, by decide, ?_⟩
  intro h
  obtain ⟨d, hd, heq⟩ := (h ⟨1000, 0⟩ (by decide)).2 5 (by decide) (by decide)
  have h5 : overflowed_state.load_count = 5 := by decide
  have h32 : overflowed_state.values.length = 32 := by decide
  have h0 : (Elem.mk 1000 0).key &&& overflowed_state.hash_mask = 0 := by decide
  rw [h5] at hd
  rw [h32, h0] at heq
  omega

/-- C9.  Count invariant: in every reachable state `count` equals the number of non-empty
slots and the length of the list. -/
theorem count_eq_occupied_eq_length (s : IntrusiveHashMapHolder) (hs : Reachable s) :
    s.count = occupied s ∧ s.count = s.list.length := by
  obtain ⟨_, hperm, hcount⟩ := hs.inv
  exact ⟨by rw [occupied_eq, hperm.length_eq, hcount], hcount⟩

/-- Witness for C9: the table `overflowed_state`, reached through one growth. -/
theorem count_eq_occupied_eq_length_witness :
    Reachable overflowed_state ∧
    (overflowed_state.count = occupied overflowed_state ∧
     overflowed_state.count = overflowed_state.list.length) :=
  ⟨reachable_run_calls _ _ _ Reachable.init run_overflowed,
    count_eq_occupied_eq_length overflowed_state
      (reachable_run_calls _ _ _ Reachable.init run_overflowed)⟩

/-! ### Termination of `insert_yield` -/

/-- A window loop of `insert_yield` that falls through met only occupied slots. -/
theorem insert_yield_loop_none {s : IntrusiveHashMapHolder} {e : Elem} {k : Nat}
    (hmask : s.hash_mask = 2 ^ k - 1) :
    ∀ n m, m < 2 ^ k → insert_yield_loop s e n m = none →
      ∀ t, t < n → slot s.values ((m + t) % 2 ^ k) ≠ none := by
  intro n
  induction n with
  | zero =>
    intro m _ _ t ht
    omega
  | succ n ih =>
    intro m hm h t ht
    unfold insert_yield_loop at h
    cases hv : slot s.values m with
    | none =>
      rw [hv] at h
      cases h
    | some v =>
      rw [hv] at h
      simp only at h
      by_cases hk : v.key = e.key
      · rw [if_pos hk] at h
        cases h
      · rw [if_neg hk, hmask, and_mask] at h
        cases t with
        | zero =>
          rw [Nat.add_zero, Nat.mod_eq_of_lt hm, hv]
          simp
        | succ t =>
          have := ih _ (Nat.mod_lt _ (Nat.two_pow_pos k)) h t (by omega)
          rwa [probe_next] at this

/-- In a state that satisfies the invariant the window loop of `insert_yield` cannot fall
through once the window is longer than the list. -/
theorem insert_yield_loop_ne_none {s : IntrusiveHashMapHolder} (e : Elem) (hinv : Inv s)
    (hne : s.values ≠ []) (hlt : s.list.length < s.load_count) :
    insert_yield_loop s e s.load_count (e.key &&& s.hash_mask) ≠ none := by
  intro hc
  obtain ⟨k, hk1, hk2, hk3, _⟩ := hinv.1.mask_lt hne
  have hstart : e.key &&& s.hash_mask < 2 ^ k := by
    rw [hk2]
    exact and_mask_lt _ k
  have h1 := insert_yield_loop_none hk2 _ _ hstart hc
  have h2 := window_le_reduceOption s.values (2 ^ k) _ s.load_count hk3 h1
  rw [hinv.2.1.length_eq] at h2
  omega

/-- `insert_yield` returns from every state that satisfies the invariant: the
grow-and-retry recursion is at most `list.length + 2` deep. -/
theorem insert_yield_terminates_of_inv (e : Elem) {s : IntrusiveHashMapHolder}
    (hinv : Inv s) : ∃ r, insert_yield (s.list.length + 2) s e = some r := by
  have key : ∀ d s, Inv s → s.values ≠ [] → s.list.length + 1 - s.load_count ≤ d →
      ∃ r, insert_yield (d + 1) s e = some r := by
    intro d
    induction d with
    | zero =>
      intro s hinv hne hd
      rw [insert_yield_succ_of_ne e 0 hne]
      cases hloop : insert_yield_loop s e s.load_count (e.key &&& s.hash_mask) with
      | some r1 => exact ⟨r1, rfl⟩
      | none => exact absurd hloop (insert_yield_loop_ne_none e hinv hne (by omega))
    | succ d ih =>
      intro s hinv hne hd
      rw [insert_yield_succ_of_ne e (d + 1) hne]
      cases hloop : insert_yield_loop s e s.load_count (e.key &&& s.hash_mask) with
      | some r1 => exact ⟨r1, rfl⟩
      | none =>
        obtain ⟨s2, hg, hinv2, hl2, _, hne2, hlc⟩ := grow_some hinv
        rw [isEmpty_eq_false hne] at hlc
        simp only [Bool.false_eq_true, if_false] at hlc
        simp only [hg]
        have hle : s.load_count ≤ s.list.length := by
          by_contra hcon
          exact insert_yield_loop_ne_none e hinv hne (by omega) hloop
        exact ih s2 hinv2 hne2 (by rw [hl2, hlc]; omega)
  by_cases hne : s.values = []
  · obtain ⟨s2, hg, hinv2, hl2, _, hne2, _⟩ := grow_some hinv
    rw [insert_yield_succ_of_empty e _ hne hg hne2, ← hl2]
    exact key (s2.list.length + 1) s2 hinv2 hne2 (by omega)
  · exact key (s.list.length + 1) s hinv hne (by omega)

/-! ### The size of the slot array after `grow` -/

theorem insert_inner_length {l l1 : List (Option Elem)} {mask : Nat} {e : Elem}
    (h : insert_inner l mask e = some l1) : l1.length = l.length := by
  unfold insert_inner at h
  split at h
  · simp only [Option.some.injEq] at h
    rw [← h]
    simp
  · cases h

theorem reinsert_length (mask : Nat) : ∀ (es : List Elem) (l l1 : List (Option Elem)),
    reinsert mask es l = some l1 → l1.length = l.length := by
  intro es
  induction es with
  | nil =>
    intro l l1 h
    simp only [reinsert, Option.some.injEq] at h
    rw [h]
  | cons e es ih =>
    intro l l1 h
    unfold reinsert at h
    split at h
    · rename_i l2 h2
      rw [ih _ _ h, insert_inner_length h2]
    · cases h

/-- The number of slots after `grow`: `16` from an empty slot array, twice the old number
otherwise. -/
theorem grow_length {s s2 : IntrusiveHashMapHolder} (h : grow s = some s2) :
    s2.values.length = if s.values.isEmpty then InitialSize else s.values.length * 2 := by
  unfold grow at h
  simp only at h
  split at h
  · rename_i l1 h1
    simp only [Option.some.injEq] at h
    rw [← h]
    simp only
    rw [reinsert_length _ _ _ _ h1]
    simp
  · cases h

/-- Successive calls of `grow` from a state that satisfies the invariant all return; the
list and `count` stay as they are and the list fills at most half of the slots. -/
theorem grow_times_some : ∀ (n : Nat) (s : IntrusiveHashMapHolder), Inv s →
    ∃ s2, grow_times (n + 1) s = some s2 ∧ Inv s2 ∧ s2.list = s.list ∧ s2.count = s.count ∧
      2 * s.list.length ≤ s2.values.length := by
  intro n
  induction n with
  | zero =>
    intro s hinv
    obtain ⟨s2, hg, hinv2, hl2, hc2, _, _⟩ := grow_some hinv
    refine ⟨s2, by simp only [grow_times, hg], hinv2, hl2, hc2, ?_⟩
    rw [grow_length hg]
    have hle := hinv.length_le
    split
    · rename_i hemp
      have : s.values = [] := List.isEmpty_iff.mp hemp
      rw [this] at hle
      simp only [List.length_nil, Nat.le_zero] at hle
      rw [hle]
      simp
    · omega
  | succ n ih =>
    intro s hinv
    obtain ⟨s1, hg, hinv1, hl1, hc1, _, _⟩ := grow_some hinv
    obtain ⟨s2, hg2, hinv2, hl2, hc2, hlen⟩ := ih s1 hinv1
    refine ⟨s2, ?_, hinv2, hl2.trans hl1, hc2.trans hc1, ?_⟩
    · rw [grow_times, hg]
      exact hg2
    · rw [← hl1]
      exact hlen
/-! ### Inserting an element whose key is new -/

theorem fresh_of_list {s : IntrusiveHashMapHolder} {e : Elem} (hinv : Inv s)
    (h : ∀ x ∈ s.list, x.ptr ≠ e.ptr) : Fresh s e :=
  ⟨h, fun x hx => h x (hinv.2.1.subset hx)⟩

/-- `insert_replace` of an element whose key is not the key of an element of the list
returns null and puts the element in front of the list. -/
theorem insert_replace_new_key {s s1 : IntrusiveHashMapHolder} {e : Elem} {r : Option Elem}
    {n : Nat} (hinv : Inv s) (hnew : ∀ x ∈ s.list, x.key ≠ e.key)
    (h : insert_replace n s e = some (r, s1)) : r = none ∧ s1.list = e :: s.list := by
  obtain ⟨s0, hinv0, hne0, hl0, _, hloop⟩ := insert_replace_some n s hinv h
  obtain ⟨hstart, hmask⟩ := hinv0.start_lt hne0 e.key
  obtain ⟨p, _, _, _, _, hcase⟩ := insert_replace_loop_some hmask _ _ hstart hloop
  rcases hcase with ⟨_, hr, hl, _⟩ | ⟨v, hv, hk, _, _, _⟩
  · exact ⟨hr, by rw [hl, hl0]⟩
  · have hmem : v ∈ s.list :=
      hl0 ▸ hinv0.2.1.subset (List.reduceOption_mem_iff.mpr (mem_of_slot_some hv))
    exact absurd hk (hnew v hmem)

/-- `insert_yield` of an element whose key is not the key of an element of the list
returns null and puts the element in front of the list. -/
theorem insert_yield_new_key {s : IntrusiveHashMapHolder} {e : Elem} {r : YieldResult}
    {n : Nat} (hinv : Inv s) (hnew : ∀ x ∈ s.list, x.key ≠ e.key)
    (h : insert_yield n s e = some r) : r.ret = none ∧ r.state.list = e :: s.list := by
  obtain ⟨s0, hinv0, hne0, hl0, _, hloop⟩ := insert_yield_some n s hinv h
  obtain ⟨hstart, hmask⟩ := hinv0.start_lt hne0 e.key
  obtain ⟨p, _, hcase⟩ := insert_yield_loop_some hmask _ _ hstart hloop
  rcases hcase with ⟨_, hr, _, _, hl, _⟩ | ⟨v, hv, hk, _, _, _⟩
  · exact ⟨hr, by rw [hl, hl0]⟩
  · have hmem : v ∈ s.list :=
      hl0 ▸ hinv0.2.1.subset (List.reduceOption_mem_iff.mpr (mem_of_slot_some hv))
    exact absurd hk (hnew v hmem)

/-- A client program that inserts elements with new, pairwise distinct keys at new,
pairwise distinct addresses runs to its end, and the elements are put in front of the
list one after the other. -/
theorem run_insert_calls : ∀ (es : List (Bool × Elem)) (s : IntrusiveHashMapHolder),
    Inv s →
    (es.map fun p => p.2.key).Nodup → (es.map fun p => p.2.ptr).Nodup →
    (∀ p ∈ es, ∀ x ∈ s.list, x.key ≠ p.2.key ∧ x.ptr ≠ p.2.ptr) →
    ∃ s1, run_calls s (insert_calls es) = some s1 ∧
      s1.list = (es.map Prod.snd).reverse ++ s.list := by
  intro es
  induction es with
  | nil =>
    intro s _ _ _ _
    exact ⟨s, rfl, by simp⟩
  | cons p es ih =>
    intro s hinv hk hp hs
    rw [List.map_cons, List.nodup_cons] at hk hp
    have hfresh : Fresh s p.2 :=
      fresh_of_list hinv (fun x hx => (hs p (List.mem_cons_self _ _) x hx).2)
    have hnew : ∀ x ∈ s.list, x.key ≠ p.2.key :=
      fun x hx => (hs p (List.mem_cons_self _ _) x hx).1
    have hstep : ∃ s1, apply_call s (if p.1 then Call.insert_yield p.2
        else Call.insert_replace p.2) = some s1 ∧ Inv s1 ∧ s1.list = p.2 :: s.list := by
      by_cases hflag : p.1 = true
      · obtain ⟨r, hr⟩ := insert_yield_terminates_of_inv p.2 hinv
        refine ⟨r.state, ?_, insert_yield_inv hinv hr, (insert_yield_new_key hinv hnew hr).2⟩
        simp only [hflag, if_true, apply_call, if_pos hfresh, hr]
      · obtain ⟨r, s1, hr⟩ := insert_replace_terminates_of_inv p.2 hinv
        refine ⟨s1, ?_, (insert_replace_inv hinv hr).1,
          (insert_replace_new_key hinv hnew hr).2⟩
        simp only [hflag, Bool.false_eq_true, if_false, apply_call, if_pos hfresh, hr]
    obtain ⟨s1, hcall, hinv1, hl1⟩ := hstep
    have hs1 : ∀ q ∈ es, ∀ x ∈ s1.list, x.key ≠ q.2.key ∧ x.ptr ≠ q.2.ptr := by
      intro q hq x hx
      rw [hl1, List.mem_cons] at hx
      rcases hx with rfl | hx
      · constructor
        · intro heq
          exact hk.1 (List.mem_map.mpr ⟨q, hq, heq.symm⟩)
        · intro heq
          exact hp.1 (List.mem_map.mpr ⟨q, hq, heq.symm⟩)
      · exact hs q (List.mem_cons_of_mem _ hq) x hx
    obtain ⟨s2, hrun, hl2⟩ := ih s1 hinv1 hk.2 hp.2 hs1
    refine ⟨s2, ?_, ?_⟩
    · simp only [insert_calls, List.map_cons, run_calls, hcall]
      exact hrun
    · rw [hl2, hl1]
      simp

theorem run_scenario1 :
    run_calls empty (insert_calls ((key_range 17).map fun e => (false, e))) =
      some scenario1_after := by decide

theorem run_scenario2_before :
    run_calls empty [Call.insert_replace ⟨1000, 0⟩, Call.insert_replace ⟨1016, 16⟩,
      Call.insert_replace ⟨1032, 32⟩, Call.insert_replace ⟨1048, 48⟩] =
      some scenario2_before := by decide
/-! ### `find` and the probes of the specification -/

/-- The window loop of `find` is the probe that passes over empty slots, when the number
of slots is a power of two and `hash_mask` is that number minus one. -/
theorem find_loop_eq_window_find_steps (l : List (Option Elem)) (k key start : Nat)
    (hl : l.length = 2 ^ k) :
    ∀ n d, find_loop l (2 ^ k - 1) key n ((start + d) % 2 ^ k) =
      window_find_steps l key start n d := by
  intro n
  induction n with
  | zero =>
    intro d
    rfl
  | succ n ih =>
    intro d
    unfold find_loop window_find_steps
    have hnext : ((start + d) % 2 ^ k + 1) &&& (2 ^ k - 1) = (start + (d + 1)) % 2 ^ k := by
      rw [and_mask, Nat.mod_add_mod]
      rfl
    rw [hl, hnext, ih (d + 1)]

/-- In a state that satisfies the invariant `find` is the lookup that examines the whole
window. -/
theorem find_eq_window_find_of_inv {s : IntrusiveHashMapHolder} (hinv : Inv s) (key : Nat) :
    find s key = window_find s key := by
  unfold find window_find
  by_cases hne : s.values = []
  · simp [hne]
  · rw [isEmpty_eq_false hne]
    simp only [Bool.false_eq_true, if_false]
    obtain ⟨k, hk1, hk2, _, _⟩ := hinv.1.mask_lt hne
    have h := find_loop_eq_window_find_steps s.values k key (key &&& s.hash_mask) hk1
      s.load_count 0
    rw [Nat.add_zero, Nat.mod_eq_of_lt (by rw [hk2]; exact and_mask_lt _ k), ← hk2] at h
    exact h

/-- Where the probe that stops at an empty slot returns an element, the probe that passes
over empty slots returns the same element. -/
theorem window_find_steps_of_spec_find_steps (l : List (Option Elem)) (key start : Nat)
    (e : Elem) : ∀ n d, spec_find_steps l key start n d = some e →
      window_find_steps l key start n d = some e := by
  intro n
  induction n with
  | zero =>
    intro d h
    simp [spec_find_steps] at h
  | succ n ih =>
    intro d h
    unfold spec_find_steps at h
    unfold window_find_steps
    cases hv : slot l ((start + d) % l.length) with
    | none =>
      rw [hv] at h
      cases h
    | some v =>
      rw [hv] at h
      simp only at h ⊢
      by_cases hk : v.key = key
      · rw [if_pos hk] at h ⊢
        exact h
      · rw [if_neg hk] at h ⊢
        exact ih _ h

/-- An element returned by the probe that passes over empty slots has the key and sits in
one of the slots the probe examines. -/
theorem window_find_steps_some (l : List (Option Elem)) (key start : Nat) (e : Elem) :
    ∀ n d, window_find_steps l key start n d = some e →
      ∃ d2, d ≤ d2 ∧ d2 < d + n ∧ slot l ((start + d2) % l.length) = some e ∧
        e.key = key := by
  intro n
  induction n with
  | zero =>
    intro d h
    simp [window_find_steps] at h
  | succ n ih =>
    intro d h
    unfold window_find_steps at h
    cases hv : slot l ((start + d) % l.length) with
    | none =>
      rw [hv] at h
      obtain ⟨d2, h1, h2, h3⟩ := ih _ h
      exact ⟨d2, by omega, by omega, h3⟩
    | some v =>
      rw [hv] at h
      simp only at h
      by_cases hk : v.key = key
      · rw [if_pos hk] at h
        simp only [Option.some.injEq] at h
        subst h
        exact ⟨d, le_refl d, by omega, hv, hk⟩
      · rw [if_neg hk] at h
        obtain ⟨d2, h1, h2, h3⟩ := ih _ h
        exact ⟨d2, by omega, by omega, h3⟩

/-- Without gaps the two probes return the same. -/
theorem window_find_steps_eq_spec_find_steps (l : List (Option Elem)) (mask key : Nat)
    (hgap : GapFreeSlots l mask) :
    ∀ n d, d + n ≤ l.length →
      window_find_steps l key (key &&& mask) n d = spec_find_steps l key (key &&& mask) n d := by
  intro n
  induction n with
  | zero =>
    intro d _
    rfl
  | succ n ih =>
    intro d hd
    unfold window_find_steps spec_find_steps
    cases hv : slot l (((key &&& mask) + d) % l.length) with
    | none =>
      simp only
      cases hw : window_find_steps l key (key &&& mask) n (d + 1) with
      | none => rfl
      | some e =>
        obtain ⟨d2, h1, h2, h3, h4⟩ := window_find_steps_some l key _ e n (d + 1) hw
        rw [← h4] at h3
        have := hgap e d2 (by omega) h3 d (by omega)
        rw [h4] at this
        exact absurd hv this
    | some v =>
      simp only
      rw [ih (d + 1) (by omega)]

/-- In a state that satisfies the invariant and has no gap, `find` is the `find` of the
specification. -/
theorem find_eq_spec_find_of_gap_free {s : IntrusiveHashMapHolder} (hinv : Inv s)
    (hgap : GapFree s) (key : Nat) : find s key = spec_find s key := by
  rw [find_eq_window_find_of_inv hinv]
  unfold window_find spec_find
  by_cases hne : s.values = []
  · simp [hne]
  · rw [isEmpty_eq_false hne]
    simp only [Bool.false_eq_true, if_false]
    obtain ⟨k, hk1, _, hk3, _⟩ := hinv.1.mask_lt hne
    exact window_find_steps_eq_spec_find_steps s.values s.hash_mask key hgap _ _
      (by rw [hk1]; omega)
/-! ### States without gaps -/

/-- The slot found by the unbounded probe of `insert_inner`, as a number of steps from the
start; the slots fewer steps away are occupied. -/
theorem insert_inner_loop_steps (l : List (Option Elem)) (k : Nat) :
    ∀ fuel m p, m < 2 ^ k → insert_inner_loop l (2 ^ k - 1) fuel m = some p →
      ∃ t, t < fuel ∧ p = (m + t) % 2 ^ k ∧
        ∀ t1, t1 < t → slot l ((m + t1) % 2 ^ k) ≠ none := by
  intro fuel
  induction fuel with
  | zero =>
    intro m p _ h
    simp [insert_inner_loop] at h
  | succ fuel ih =>
    intro m p hm h
    unfold insert_inner_loop at h
    cases hv : slot l m with
    | none =>
      rw [hv] at h
      simp only [Option.some.injEq] at h
      exact ⟨0, by omega, by rw [Nat.add_zero, Nat.mod_eq_of_lt hm, h], fun t1 ht1 => by omega⟩
    | some v =>
      rw [hv] at h
      simp only at h
      rw [and_mask] at h
      obtain ⟨t, ht, hp, hprev⟩ := ih _ p (Nat.mod_lt _ (Nat.two_pow_pos k)) h
      refine ⟨t + 1, by omega, by rw [hp, probe_next], ?_⟩
      intro t1 ht1
      cases t1 with
      | zero =>
        rw [Nat.add_zero, Nat.mod_eq_of_lt hm, hv]
        simp
      | succ t1 =>
        have := hprev t1 (by omega)
        rwa [probe_next] at this

/-- Writing an element into the slot `t` steps after its home slot keeps the slot array
free of gaps when the slots fewer steps after the home slot are occupied. -/
theorem gap_free_set (l : List (Option Elem)) (mask N t : Nat) (e : Elem)
    (hgap : GapFreeSlots l mask) (hl : l.length = N) (ht : t < N)
    (hprev : ∀ t1, t1 < t → slot l (((e.key &&& mask) + t1) % N) ≠ none) :
    GapFreeSlots (l.set (((e.key &&& mask) + t) % N) (some e)) mask := by
  have hN : 0 < N := by omega
  have hp : ((e.key &&& mask) + t) % N < l.length := by
    rw [hl]
    exact Nat.mod_lt _ hN
  intro e2 d hd hslot d1 hd1
  simp only [List.length_set, hl] at hd hslot ⊢
  by_cases hidx : ((e.key &&& mask) + t) % N = ((e2.key &&& mask) + d) % N
  · rw [← hidx, slot_set_self _ _ _ hp] at hslot
    simp only [Option.some.injEq] at hslot
    subst hslot
    have hdt : t = d := add_mod_inj ht hd hidx
    subst hdt
    have hne : ((e.key &&& mask) + t) % N ≠ ((e.key &&& mask) + d1) % N := by
      intro hc
      have := add_mod_inj ht (by omega) hc
      omega
    rw [slot_set_other _ _ _ _ hne]
    exact hprev d1 hd1
  · rw [slot_set_other _ _ _ _ hidx] at hslot
    have hold := hgap e2 d (by rw [hl]; exact hd) (by rw [hl]; exact hslot) d1 hd1
    rw [hl] at hold
    by_cases hidx1 : ((e.key &&& mask) + t) % N = ((e2.key &&& mask) + d1) % N
    · rw [← hidx1, slot_set_self _ _ _ hp]
      simp
    · rw [slot_set_other _ _ _ _ hidx1]
      exact hold

theorem insert_inner_gap_free {l l1 : List (Option Elem)} {k : Nat} {e : Elem}
    (hl : l.length = 2 ^ k) (hgap : GapFreeSlots l (2 ^ k - 1))
    (h : insert_inner l (2 ^ k - 1) e = some l1) : GapFreeSlots l1 (2 ^ k - 1) := by
  unfold insert_inner at h
  split at h
  · rename_i p hp
    simp only [Option.some.injEq] at h
    obtain ⟨t, ht, hpt, hprev⟩ := insert_inner_loop_steps l k _ _ p (and_mask_lt _ k) hp
    rw [← h, hpt]
    exact gap_free_set l _ _ t e hgap hl (by rw [← hl]; exact ht) hprev
  · cases h

theorem reinsert_gap_free (k : Nat) : ∀ (es : List Elem) (l l1 : List (Option Elem)),
    l.length = 2 ^ k → GapFreeSlots l (2 ^ k - 1) → reinsert (2 ^ k - 1) es l = some l1 →
    GapFreeSlots l1 (2 ^ k - 1) := by
  intro es
  induction es with
  | nil =>
    intro l l1 _ hgap h
    simp only [reinsert, Option.some.injEq] at h
    exact h ▸ hgap
  | cons e es ih =>
    intro l l1 hl hgap h
    unfold reinsert at h
    split at h
    · rename_i l2 h2
      exact ih l2 l1 (by rw [insert_inner_length h2, hl]) (insert_inner_gap_free hl hgap h2) h
    · cases h

theorem gap_free_replicate (n mask : Nat) : GapFreeSlots (List.replicate n none) mask := by
  intro e d _ hslot
  rw [slot_replicate] at hslot
  cases hslot

/-- The slot array built by `grow` has no gap. -/
theorem grow_gap_free {s s2 : IntrusiveHashMapHolder} (hinv : Inv s)
    (h : grow s = some s2) : GapFree s2 := by
  have hsize : ∃ k, (if s.values.isEmpty then InitialSize else s.values.length * 2) = 2 ^ k := by
    rcases hinv.1 with ⟨h1, _, _⟩ | ⟨j, h1, _, _⟩
    · exact ⟨4, by simp [h1, InitialSize]⟩
    · refine ⟨j + 1 + 4, ?_⟩
      have hne : s.values ≠ [] := by
        intro hc
        rw [hc] at h1
        have := Nat.two_pow_pos (j + 4)
        simp at h1
        omega
      rw [isEmpty_eq_false hne, h1]
      simp only [Bool.false_eq_true, if_false]
      ring
  obtain ⟨k, hk⟩ := hsize
  unfold grow at h
  simp only at h
  rw [hk] at h
  split at h
  · rename_i l1 h1
    simp only [Option.some.injEq] at h
    rw [← h]
    exact reinsert_gap_free k _ _ _ (by simp) (gap_free_replicate _ _) h1
  · cases h

/-- The slot written by a returning window loop of `insert_replace`, as a number of steps
from the start; the slots fewer steps away are occupied. -/
theorem insert_replace_loop_steps {s s1 : IntrusiveHashMapHolder} {e : Elem}
    {r : Option Elem} {k : Nat} (hmask : s.hash_mask = 2 ^ k - 1) :
    ∀ n m, m < 2 ^ k → insert_replace_loop s e n m = some (r, s1) →
      ∃ t, t < n ∧ s1.values = s.values.set ((m + t) % 2 ^ k) (some e) ∧
        s1.hash_mask = s.hash_mask ∧
        ∀ t1, t1 < t → slot s.values ((m + t1) % 2 ^ k) ≠ none := by
  intro n
  induction n with
  | zero =>
    intro m _ h
    simp [insert_replace_loop] at h
  | succ n ih =>
    intro m hm h
    unfold insert_replace_loop at h
    cases hv : slot s.values m with
    | none =>
      rw [hv] at h
      simp only [Option.some.injEq, Prod.mk.injEq] at h
      obtain ⟨_, rfl⟩ := h
      exact ⟨0, by omega, by simp only [Nat.add_zero, Nat.mod_eq_of_lt hm], rfl,
        fun t1 ht1 => by omega⟩
    | some v =>
      rw [hv] at h
      simp only at h
      by_cases hk : v.key = e.key
      · rw [if_pos hk] at h
        simp only [Option.some.injEq, Prod.mk.injEq] at h
        obtain ⟨_, rfl⟩ := h
        exact ⟨0, by omega, by simp only [Nat.add_zero, Nat.mod_eq_of_lt hm], rfl,
          fun t1 ht1 => by omega⟩
      · rw [if_neg hk, hmask, and_mask] at h
        obtain ⟨t, ht, hvals, hm1, hprev⟩ := ih _ (Nat.mod_lt _ (Nat.two_pow_pos k)) h
        refine ⟨t + 1, by omega, by rw [hvals, probe_next], hm1, ?_⟩
        intro t1 ht1
        cases t1 with
        | zero =>
          rw [Nat.add_zero, Nat.mod_eq_of_lt hm, hv]
          simp
        | succ t1 =>
          have := hprev t1 (by omega)
          rwa [probe_next] at this

/-- The slot written by a returning window loop of `insert_yield`, if it wrote one. -/
theorem insert_yield_loop_steps {s : IntrusiveHashMapHolder} {e : Elem}
    {r : YieldResult} {k : Nat} (hmask : s.hash_mask = 2 ^ k - 1) :
    ∀ n m, m < 2 ^ k → insert_yield_loop s e n m = some r →
      r.state = s ∨
      ∃ t, t < n ∧ r.state.values = s.values.set ((m + t) % 2 ^ k) (some e) ∧
        r.state.hash_mask = s.hash_mask ∧
        ∀ t1, t1 < t → slot s.values ((m + t1) % 2 ^ k) ≠ none := by
  intro n
  induction n with
  | zero =>
    intro m _ h
    simp [insert_yield_loop] at h
  | succ n ih =>
    intro m hm h
    unfold insert_yield_loop at h
    cases hv : slot s.values m with
    | none =>
      rw [hv] at h
      simp only [Option.some.injEq] at h
      subst h
      exact Or.inr ⟨0, by omega, by simp only [Nat.add_zero, Nat.mod_eq_of_lt hm], rfl,
        fun t1 ht1 => by omega⟩
    | some v =>
      rw [hv] at h
      simp only at h
      by_cases hk : v.key = e.key
      · rw [if_pos hk] at h
        simp only [Option.some.injEq] at h
        subst h
        exact Or.inl rfl
      · rw [if_neg hk, hmask, and_mask] at h
        rcases ih _ (Nat.mod_lt _ (Nat.two_pow_pos k)) h with hs | ⟨t, ht, hvals, hm1, hprev⟩
        · exact Or.inl hs
        · refine Or.inr ⟨t + 1, by omega, by rw [hvals, probe_next], hm1, ?_⟩
          intro t1 ht1
          cases t1 with
          | zero =>
            rw [Nat.add_zero, Nat.mod_eq_of_lt hm, hv]
            simp
          | succ t1 =>
            have := hprev t1 (by omega)
            rwa [probe_next] at this
/-- The state on which a returning `insert_replace` ran its last window loop has no gap
when the initial state has none. -/
theorem insert_replace_some_gap_free {e : Elem} {r : Option Elem}
    {s1 : IntrusiveHashMapHolder} :
    ∀ n s, Inv s → GapFree s → insert_replace n s e = some (r, s1) →
      ∃ s0, Inv s0 ∧ GapFree s0 ∧ s0.values ≠ [] ∧
        insert_replace_loop s0 e s0.load_count (e.key &&& s0.hash_mask) = some (r, s1) := by
  have key : ∀ n s, Inv s → GapFree s → s.values ≠ [] →
      insert_replace n s e = some (r, s1) →
      ∃ s0, Inv s0 ∧ GapFree s0 ∧ s0.values ≠ [] ∧
        insert_replace_loop s0 e s0.load_count (e.key &&& s0.hash_mask) = some (r, s1) := by
    intro n
    induction n with
    | zero =>
      intro s _ _ _ h
      simp [insert_replace] at h
    | succ n ih =>
      intro s hinv hgap hne h
      rw [insert_replace_succ_of_ne e n hne] at h
      cases hloop : insert_replace_loop s e s.load_count (e.key &&& s.hash_mask) with
      | some r1 =>
        rw [hloop] at h
        simp only [Option.some.injEq] at h
        subst h
        exact ⟨s, hinv, hgap, hne, hloop⟩
      | none =>
        rw [hloop] at h
        obtain ⟨s2, hg, hinv2, _, _, hne2, _⟩ := grow_some hinv
        rw [hg] at h
        exact ih s2 hinv2 (grow_gap_free hinv hg) hne2 h
  intro n s hinv hgap h
  by_cases hne : s.values = []
  · cases n with
    | zero => simp [insert_replace] at h
    | succ n =>
      obtain ⟨s2, hg, hinv2, _, _, hne2, _⟩ := grow_some hinv
      rw [insert_replace_succ_of_empty e n hne hg hne2] at h
      exact key (n + 1) s2 hinv2 (grow_gap_free hinv hg) hne2 h
  · exact key n s hinv hgap hne h

/-- `insert_replace` keeps the slot array free of gaps. -/
theorem insert_replace_gap_free {e : Elem} {r : Option Elem} {s s1 : IntrusiveHashMapHolder}
    {n : Nat} (hinv : Inv s) (hgap : GapFree s) (h : insert_replace n s e = some (r, s1)) :
    GapFree s1 := by
  obtain ⟨s0, hinv0, hgap0, hne0, hloop⟩ := insert_replace_some_gap_free n s hinv hgap h
  obtain ⟨k, hk1, hk2, hk3, _⟩ := hinv0.1.mask_lt hne0
  have hstart : e.key &&& s0.hash_mask < 2 ^ k := by
    rw [hk2]
    exact and_mask_lt _ k
  obtain ⟨t, ht, hvals, hm1, hprev⟩ := insert_replace_loop_steps hk2 _ _ hstart hloop
  unfold GapFree
  rw [hvals, hm1]
  exact gap_free_set s0.values s0.hash_mask (2 ^ k) t e hgap0 hk1 (by omega) hprev

/-- The state on which a returning `insert_yield` ran its last window loop has no gap when
the initial state has none. -/
theorem insert_yield_some_gap_free {e : Elem} {r : YieldResult} :
    ∀ n s, Inv s → GapFree s → insert_yield n s e = some r →
      ∃ s0, Inv s0 ∧ GapFree s0 ∧ s0.values ≠ [] ∧
        insert_yield_loop s0 e s0.load_count (e.key &&& s0.hash_mask) = some r := by
  have key : ∀ n s, Inv s → GapFree s → s.values ≠ [] → insert_yield n s e = some r →
      ∃ s0, Inv s0 ∧ GapFree s0 ∧ s0.values ≠ [] ∧
        insert_yield_loop s0 e s0.load_count (e.key &&& s0.hash_mask) = some r := by
    intro n
    induction n with
    | zero =>
      intro s _ _ _ h
      simp [insert_yield] at h
    | succ n ih =>
      intro s hinv hgap hne h
      rw [insert_yield_succ_of_ne e n hne] at h
      cases hloop : insert_yield_loop s e s.load_count (e.key &&& s.hash_mask) with
      | some r1 =>
        rw [hloop] at h
        simp only [Option.some.injEq] at h
        subst h
        exact ⟨s, hinv, hgap, hne, hloop⟩
      | none =>
        rw [hloop] at h
        obtain ⟨s2, hg, hinv2, _, _, hne2, _⟩ := grow_some hinv
        rw [hg] at h
        exact ih s2 hinv2 (grow_gap_free hinv hg) hne2 h
  intro n s hinv hgap h
  by_cases hne : s.values = []
  · cases n with
    | zero => simp [insert_yield] at h
    | succ n =>
      obtain ⟨s2, hg, hinv2, _, _, hne2, _⟩ := grow_some hinv
      rw [insert_yield_succ_of_empty e n hne hg hne2] at h
      exact key (n + 1) s2 hinv2 (grow_gap_free hinv hg) hne2 h
  · exact key n s hinv hgap hne h

/-- `insert_yield` keeps the slot array free of gaps. -/
theorem insert_yield_gap_free {e : Elem} {r : YieldResult} {s : IntrusiveHashMapHolder}
    {n : Nat} (hinv : Inv s) (hgap : GapFree s) (h : insert_yield n s e = some r) :
    GapFree r.state := by
  obtain ⟨s0, hinv0, hgap0, hne0, hloop⟩ := insert_yield_some_gap_free n s hinv hgap h
  obtain ⟨k, hk1, hk2, hk3, _⟩ := hinv0.1.mask_lt hne0
  have hstart : e.key &&& s0.hash_mask < 2 ^ k := by
    rw [hk2]
    exact and_mask_lt _ k
  rcases insert_yield_loop_steps hk2 _ _ hstart hloop with hs | ⟨t, ht, hvals, hm1, hprev⟩
  · rw [hs]
    exact hgap0
  · unfold GapFree
    rw [hvals, hm1]
    exact gap_free_set s0.values s0.hash_mask (2 ^ k) t e hgap0 hk1 (by omega) hprev

theorem gap_free_empty : GapFree empty := by
  intro e d hd
  simp [empty] at hd

theorem ReachableNoErase.reachable {s : IntrusiveHashMapHolder} (h : ReachableNoErase s) :
    Reachable s := by
  induction h with
  | init => exact Reachable.init
  | step_insert_replace fuel _ hf hstep ih => exact Reachable.step_insert_replace fuel ih hf hstep
  | step_insert_yield fuel _ hf hstep ih => exact Reachable.step_insert_yield fuel ih hf hstep
  | step_clear _ ih => exact Reachable.step_clear ih

/-- A state reached without `erase` has no gap. -/
theorem ReachableNoErase.gap_free {s : IntrusiveHashMapHolder} (h : ReachableNoErase s) :
    GapFree s := by
  induction h with
  | init => exact gap_free_empty
  | step_insert_replace fuel hprev _ hstep ih =>
    exact insert_replace_gap_free hprev.reachable.inv ih hstep
  | step_insert_yield fuel hprev _ hstep ih =>
    exact insert_yield_gap_free hprev.reachable.inv ih hstep
  | step_clear _ _ => exact gap_free_empty
/-! ### The claims about iteration, growth, termination and the probe of `find` -/

/-- C11.  Iteration order: a client program that inserts (with `insert_replace` or
`insert_yield`, in any mix) elements with pairwise distinct keys at pairwise distinct
addresses into the default-constructed holder runs to its end, whatever the number of
growths, and iteration from `begin()` to `end()` then visits exactly the inserted elements,
the most recently inserted first. -/
theorem iteration_reverse_insertion_order (es : List (Bool × Elem))
    (hk : (es.map fun p => p.2.key).Nodup) (hp : (es.map fun p => p.2.ptr).Nodup) :
    ∃ s, run_calls empty (insert_calls es) = some s ∧ Reachable s ∧
      iteration s = (es.map Prod.snd).reverse := by
  obtain ⟨s, hrun, hl⟩ := run_insert_calls es empty inv_empty hk hp
    (fun _ _ x hx => by simp [empty] at hx)
  refine ⟨s, hrun, reachable_run_calls _ _ _ Reachable.init hrun, ?_⟩
  unfold iteration
  rw [hl]
  simp [empty]

/-- Witness for C11, scenario S1: `insert_replace` of keys `0, 1, ..., 16`.  The table grows
to 32 slots, `find` returns the element inserted for each key, and iteration visits the
elements with keys `16, 15, ..., 0` in that order. -/
theorem iteration_reverse_insertion_order_witness :
    (((key_range 17).map fun e => (false, e)).map fun p => p.2.key).Nodup ∧
    (((key_range 17).map fun e => (false, e)).map fun p => p.2.ptr).Nodup ∧
    (∃ s, run_calls empty (insert_calls ((key_range 17).map fun e => (false, e))) = some s ∧
      Reachable s ∧
      iteration s = (((key_range 17).map fun e => (false, e)).map Prod.snd).reverse) ∧
    run_calls empty (insert_calls ((key_range 17).map fun e => (false, e))) =
      some scenario1_after ∧
    scenario1_after.values.length = 32 ∧
    (∀ k, k < 17 → find scenario1_after k = some ⟨1000 + k, k⟩) ∧
    iteration scenario1_after =
      [⟨1016, 16⟩, ⟨1015, 15⟩, ⟨1014, 14⟩, ⟨1013, 13⟩, ⟨1012, 12⟩, ⟨1011, 11⟩, ⟨1010, 10⟩,
       ⟨1009, 9⟩, ⟨1008, 8⟩, ⟨1007, 7⟩, ⟨1006, 6⟩, ⟨1005, 5⟩, ⟨1004, 4⟩, ⟨1003, 3⟩,
       ⟨1002, 2⟩, ⟨1001, 1⟩, ⟨1000, 0⟩] :=
  ⟨by decide, by decide,
    iteration_reverse_insertion_order ((key_range 17).map fun e => (false, e))
      (by decide) (by decide),
    run_scenario1, by decide, by decide, by decide⟩

/-- C12.  Scenario S2: `insert_replace` of fresh elements with keys `0, 16, 32, 48` leaves a
16-slot table with a window of 4; the window loop of the fifth insert, of key `64`, falls
through on it, one call of `grow` follows, and the window loop then succeeds on the grown
table, so the insert grows exactly once; afterwards `find` returns the right element for
each of the five keys, `load_count` is 5 and there are 32 slots. -/
theorem scenario_probe_window_overflow :
    run_calls empty [Call.insert_replace ⟨1000, 0⟩, Call.insert_replace ⟨1016, 16⟩,
      Call.insert_replace ⟨1032, 32⟩, Call.insert_replace ⟨1048, 48⟩] =
      some scenario2_before ∧
    scenario2_before.values.length = 16 ∧
    scenario2_before.load_count = 4 ∧
    Fresh scenario2_before ⟨1064, 64⟩ ∧
    insert_replace_loop scenario2_before ⟨1064, 64⟩ scenario2_before.load_count
      (64 &&& scenario2_before.hash_mask) = none ∧
    grow scenario2_before = some scenario2_grown ∧
    insert_replace_loop scenario2_grown ⟨1064, 64⟩ scenario2_grown.load_count
      (64 &&& scenario2_grown.hash_mask) = some (none, scenario2_after) ∧
    (∀ n, insert_replace (n + 2) scenario2_before ⟨1064, 64⟩ =
      some (none, scenario2_after)) ∧
    find scenario2_after 0 = some ⟨1000, 0⟩ ∧
    find scenario2_after 16 = some ⟨1016, 16⟩ ∧
    find scenario2_after 32 = some ⟨1032, 32⟩ ∧
    find scenario2_after 48 = some ⟨1048, 48⟩ ∧
    find scenario2_after 64 = some ⟨1064, 64⟩ ∧
    scenario2_after.load_count = 5 ∧
    scenario2_after.values.length = 32 :=
  ⟨run_scenario2_before, by decide, by decide, by decide, by decide, by decide, by decide,
    fun _ => rfl, by decide, by decide, by decide, by decide, by decide, by decide,
    by decide⟩

/-- C13.  Capacity and window are coupled: in every reachable state either the slot array
is empty with `hash_mask`, `count` and `load_count` zero, or for some `j` there are
`16 * 2 ^ j` slots, `load_count = 4 + j` and `hash_mask` is the number of slots minus one;
then the window is shorter than the slot array and no two steps of a window lead to the
same slot. -/
theorem capacity_window_coupling (s : IntrusiveHashMapHolder) (hs : Reachable s) :
    (s.values = [] ∧ s.hash_mask = 0 ∧ s.count = 0 ∧ s.load_count = 0) ∨
    ∃ j, s.values.length = 16 * 2 ^ j ∧ s.load_count = 4 + j ∧
      s.hash_mask = s.values.length - 1 ∧ s.load_count < s.values.length ∧
      ∀ h a b, a < s.load_count → b < s.load_count →
        (h + a) % s.values.length = (h + b) % s.values.length → a = b := by
  obtain ⟨hshape, hperm, hcount⟩ := hs.inv
  rcases hshape with ⟨h1, h2, h3⟩ | ⟨j, h1, h2, h3⟩
  · refine Or.inl ⟨h1, h3, ?_, h2⟩
    rw [h1] at hperm
    have hl : s.list = [] := by simpa using hperm.symm
    rw [hcount, hl]
    rfl
  · have hlt : j + 4 < 2 ^ (j + 4) := Nat.lt_two_pow (j + 4)
    refine Or.inr ⟨j, ?_, by omega, by rw [h3, h1], by omega, ?_⟩
    · rw [h1]
      ring
    · intro h a b ha hb hab
      exact add_mod_inj (by omega) (by omega) hab

/-- Witness for C13: the 32-slot table `overflowed_state`. -/
theorem capacity_window_coupling_witness :
    Reachable overflowed_state ∧
    ((overflowed_state.values = [] ∧ overflowed_state.hash_mask = 0 ∧
        overflowed_state.count = 0 ∧ overflowed_state.load_count = 0) ∨
     ∃ j, overflowed_state.values.length = 16 * 2 ^ j ∧ overflowed_state.load_count = 4 + j ∧
      overflowed_state.hash_mask = overflowed_state.values.length - 1 ∧
      overflowed_state.load_count < overflowed_state.values.length ∧
      ∀ h a b, a < overflowed_state.load_count → b < overflowed_state.load_count →
        (h + a) % overflowed_state.values.length = (h + b) % overflowed_state.values.length →
        a = b) :=
  ⟨reachable_run_calls _ _ _ Reachable.init run_overflowed,
    capacity_window_coupling overflowed_state
      (reachable_run_calls _ _ _ Reachable.init run_overflowed)⟩

/-- C14.  Termination of insertion: from every reachable state `insert_replace` and
`insert_yield` of any element return, with a grow-and-retry recursion at most
`list.length + 2` deep; and once the window is longer than the list the window loop cannot
fall through, so the insert returns without growing. -/
theorem insert_terminates (s : IntrusiveHashMapHolder) (e : Elem) (hs : Reachable s) :
    (∃ r s1, insert_replace (s.list.length + 2) s e = some (r, s1)) ∧
    (∃ r, insert_yield (s.list.length + 2) s e = some r) ∧
    (s.values ≠ [] → s.list.length < s.load_count →
      insert_replace_loop s e s.load_count (e.key &&& s.hash_mask) ≠ none ∧
      insert_yield_loop s e s.load_count (e.key &&& s.hash_mask) ≠ none) :=
  ⟨insert_replace_terminates_of_inv e hs.inv, insert_yield_terminates_of_inv e hs.inv,
    fun hne hlt => ⟨insert_replace_loop_ne_none e hs.inv hne hlt,
      insert_yield_loop_ne_none e hs.inv hne hlt⟩⟩

/-- Witness for C14: the table `crowded_state` and an element with key `16`, whose insert
has to grow the table. -/
theorem insert_terminates_witness :
    Reachable crowded_state ∧
    ((∃ r s1, insert_replace (crowded_state.list.length + 2) crowded_state ⟨1016, 16⟩ =
        some (r, s1)) ∧
     (∃ r, insert_yield (crowded_state.list.length + 2) crowded_state ⟨1016, 16⟩ = some r) ∧
     (crowded_state.values ≠ [] → crowded_state.list.length < crowded_state.load_count →
      insert_replace_loop crowded_state ⟨1016, 16⟩ crowded_state.load_count
        ((Elem.mk 1016 16).key &&& crowded_state.hash_mask) ≠ none ∧
      insert_yield_loop crowded_state ⟨1016, 16⟩ crowded_state.load_count
        ((Elem.mk 1016 16).key &&& crowded_state.hash_mask) ≠ none)) :=
  ⟨reachable_run_calls _ _ _ Reachable.init run_crowded,
    insert_terminates crowded_state ⟨1016, 16⟩
      (reachable_run_calls _ _ _ Reachable.init run_crowded)⟩

/-- C15 (counterexample).  The claim: `find` returns what the probe of the specification
returns, which gives up at the first empty slot.  In `hole_state` (keys `0` and `16`
inserted, the element with key `0` erased) slot `0` is empty and the element with key `16`
is in slot `1`: the probe of the specification returns none for key `16`, `find` returns
the element. -/
theorem find_passes_empty_slot :
    Reachable hole_state ∧
    slot hole_state.values (16 &&& hole_state.hash_mask) = none ∧
    spec_find hole_state 16 = none ∧
    find hole_state 16 = some ⟨1016, 16⟩ :=
  ⟨reachable_run_calls _ _ _ Reachable.init run_hole, by decide, by decide, by decide⟩

/-- C15 (amended).  On every reachable state and every key, `find` returns what the probe
returns that walks forward from `key & mask` for at most `probe_limit` steps, returns a
slot's element when its key matches, and passes over empty slots.  Whenever the probe that
stops at the first empty slot returns an element, `find` returns that element, and on a
state reached without `erase` the two return the same. -/
theorem find_examines_whole_window (s : IntrusiveHashMapHolder) (key : Nat)
    (hs : Reachable s) :
    find s key = window_find s key ∧
    (∀ e, spec_find s key = some e → find s key = some e) ∧
    (ReachableNoErase s → find s key = spec_find s key) := by
  refine ⟨find_eq_window_find_of_inv hs.inv key, ?_,
    fun hne => find_eq_spec_find_of_gap_free hs.inv hne.gap_free key⟩
  intro e he
  rw [find_eq_window_find_of_inv hs.inv key]
  unfold spec_find at he
  unfold window_find
  split
  · rename_i hemp
    rw [if_pos hemp] at he
    cases he
  · rename_i hemp
    rw [if_neg hemp] at he
    exact window_find_steps_of_spec_find_steps _ _ _ _ _ _ he

/-- Witness for C15 (amended): `hole_state` and key `16`. -/
theorem find_examines_whole_window_witness :
    Reachable hole_state ∧
    (find hole_state 16 = window_find hole_state 16 ∧
     (∀ e, spec_find hole_state 16 = some e → find hole_state 16 = some e) ∧
     (ReachableNoErase hole_state → find hole_state 16 = spec_find hole_state 16)) :=
  ⟨reachable_run_calls _ _ _ Reachable.init run_hole,
    find_examines_whole_window hole_state 16
      (reachable_run_calls _ _ _ Reachable.init run_hole)⟩

/-- C16.  The rebuild ends and leaves the table half empty: from every reachable state any
number of successive calls of `grow` return (so each unbounded probe of `insert_inner`
found an empty slot); the list has at most half as many elements as there are slots
afterwards, at most half of the slots are occupied, and the order of the list and `count`
are unchanged. -/
theorem grow_rebuild_half_empty (s : IntrusiveHashMapHolder) (n : Nat) (hs : Reachable s) :
    ∃ s2, grow_times (n + 1) s = some s2 ∧
      2 * s.list.length ≤ s2.values.length ∧
      2 * occupied s2 ≤ s2.values.length ∧
      iteration s2 = iteration s ∧
      s2.count = s.count := by
  obtain ⟨s2, hg, hinv2, hl2, hc2, hlen⟩ := grow_times_some n s hs.inv
  refine ⟨s2, hg, hlen, ?_, hl2, hc2⟩
  rw [occupied_eq, hinv2.2.1.length_eq, hl2]
  exact hlen

/-- Witness for C16: two successive calls of `grow` from `crowded_state`. -/
theorem grow_rebuild_half_empty_witness :
    Reachable crowded_state ∧
    ∃ s2, grow_times (1 + 1) crowded_state = some s2 ∧
      2 * crowded_state.list.length ≤ s2.values.length ∧
      2 * occupied s2 ≤ s2.values.length ∧
      iteration s2 = iteration crowded_state ∧
      s2.count = crowded_state.count :=
  ⟨reachable_run_calls _ _ _ Reachable.init run_crowded,
    grow_rebuild_half_empty crowded_state 1
      (reachable_run_calls _ _ _ Reachable.init run_crowded)⟩

/-- C18 (defect of the inserts, the one behind C3 and C5).  The claim: no two occupied
slots hold elements with equal keys.  The code at the client program `insert_replace` of
keys `0` and `16`, `erase` of the element with key `0`, `insert_replace` of a second
element with key `16`: slots `0` and `1` hold two different elements with key `16`, and
both are in the list. -/
theorem duplicate_keys_reachable :
    Reachable twin_state ∧
    slot twin_state.values 0 = some ⟨2016, 16⟩ ∧
    slot twin_state.values 1 = some ⟨1016, 16⟩ ∧
    twin_state.list = [⟨2016, 16⟩, ⟨1016, 16⟩] :=
  ⟨reachable_run_calls _ _ _ Reachable.init run_twin, by decide, by decide, by decide⟩

/-- C20 (defects of the inserts and of `grow`).  The claim: for an element of the table
the probe of `erase` reaches a slot with its key, and the two assertions hold there.  The
code at `twin_state` and the older of the two elements with key `16`: the element is in
the list and in slot `1`, the probe meets the newer element in slot `0` first, and the
assertion `values[masked] == value` fails.  The code at `overflowed_state` and the
element with key `0`: the element is in the list and in slot `5`, outside its window; the
probe meets no slot with its key and `erase` returns without any change. -/
theorem erase_assertion_fails :
    Reachable twin_state ∧
    InTable twin_state ⟨1016, 16⟩ ∧
    slot twin_state.values (16 &&& twin_state.hash_mask) = some ⟨2016, 16⟩ ∧
    erase twin_state ⟨1016, 16⟩ = none ∧
    Reachable overflowed_state ∧
    InTable overflowed_state ⟨1000, 0⟩ ∧
    erase overflowed_state ⟨1000, 0⟩ = some overflowed_state :=
  ⟨reachable_run_calls _ _ _ Reachable.init run_twin, by decide, by decide, by decide,
    reachable_run_calls _ _ _ Reachable.init run_overflowed, by decide, by decide⟩

/-! ### The list after an insert -/

/-- The list after `insert_replace`: the element in front of the old list, from which the
returned element, if any, has been unlinked. -/
theorem insert_replace_list_cases {s s1 : IntrusiveHashMapHolder} {e : Elem}
    {r : Option Elem} {n : Nat} (hinv : Inv s) (h : insert_replace n s e = some (r, s1)) :
    (r = none ∧ s1.list = e :: s.list) ∨
    ∃ v, r = some v ∧ s1.list = e :: s.list.erase v := by
  obtain ⟨s0, hinv0, hne0, hl0, _, hloop⟩ := insert_replace_some n s hinv h
  obtain ⟨hstart, hmask⟩ := hinv0.start_lt hne0 e.key
  obtain ⟨p, _, _, _, _, hcase⟩ := insert_replace_loop_some hmask _ _ hstart hloop
  rcases hcase with ⟨_, hr, hl, _⟩ | ⟨v, _, _, hr, hl, _⟩
  · exact Or.inl ⟨hr, by rw [hl, hl0]⟩
  · exact Or.inr ⟨v, hr, by rw [hl, hl0]⟩

/-- The list after `insert_yield`: the element in front of the old list when null is
returned, the old list when the element itself is returned. -/
theorem insert_yield_list_cases {s : IntrusiveHashMapHolder} {e : Elem} {r : YieldResult}
    {n : Nat} (hinv : Inv s) (h : insert_yield n s e = some r) :
    (r.ret = none ∧ r.state.list = e :: s.list) ∨
    (r.ret = some e ∧ r.state.list = s.list) := by
  obtain ⟨s0, hinv0, hne0, hl0, _, hloop⟩ := insert_yield_some n s hinv h
  obtain ⟨hstart, hmask⟩ := hinv0.start_lt hne0 e.key
  obtain ⟨p, _, hcase⟩ := insert_yield_loop_some hmask _ _ hstart hloop
  rcases hcase with ⟨_, hr, _, _, hl, _⟩ | ⟨v, _, _, hr, _, hst⟩
  · exact Or.inl ⟨hr, by rw [hl, hl0]⟩
  · exact Or.inr ⟨hr, by rw [hst, hl0]⟩

end IntrusiveHashMapHolder

namespace IntrusiveHashMap

/-! ### The owning map -/

theorem mem_free_live (p : ObjectPool) (ptr q : Nat) :
    q ∈ (p.free ptr).live ↔ q ∈ p.live ∧ ptr ≠ q := by
  simp only [ObjectPool.free, List.mem_filter, decide_eq_true_eq]
  constructor
  · rintro ⟨h1, h2⟩
    exact ⟨h1, fun h => h2 h.symm⟩
  · rintro ⟨h1, h2⟩
    exact ⟨h1, fun h => h2 h.symm⟩

/-- The pool after the freeing loop of `clear`: what is still allocated is what was
allocated and is not an element of the list. -/
theorem mem_free_all_live (es : List Elem) : ∀ (p : ObjectPool) (q : Nat),
    q ∈ (es.foldl (fun p t => p.free t.ptr) p).live ↔ q ∈ p.live ∧ ∀ e ∈ es, e.ptr ≠ q := by
  induction es with
  | nil =>
    intro p q
    simp
  | cons e es ih =>
    intro p q
    rw [List.foldl_cons, ih, mem_free_live]
    simp only [List.mem_cons, forall_eq_or_imp]
    tauto

/-- The effect of `clear()` on any state of the owning map: the list is empty, `count` is
zero, `find` returns none for every key, every element of the list has been freed, and what
is still allocated is what was allocated before and is not an element of the list. -/
theorem clear_frees_list (m : IntrusiveHashMap) :
    (clear m).hashmap.list = [] ∧
    (clear m).hashmap.count = 0 ∧
    (∀ k, find (clear m) k = none) ∧
    (∀ e ∈ m.hashmap.list, e.ptr ∉ (clear m).pool.live) ∧
    (∀ q, q ∈ (clear m).pool.live ↔ q ∈ m.pool.live ∧ ∀ e ∈ m.hashmap.list, e.ptr ≠ q) := by
  refine ⟨rfl, rfl, fun k => rfl, ?_, fun q => mem_free_all_live _ _ _⟩
  intro e he hmem
  exact ((mem_free_all_live _ _ _).mp hmem).2 e he rfl

/-- Every state produced by a client program from a reachable state of the owning map is
reachable. -/
theorem reachable_run_map_calls : ∀ (cs : List Call) (m m1 : IntrusiveHashMap),
    Reachable m → run_calls m cs = some m1 → Reachable m1 := by
  intro cs
  induction cs with
  | nil =>
    intro m m1 hm h
    simp only [run_calls, Option.some.injEq] at h
    exact h ▸ hm
  | cons c cs ih =>
    intro m m1 hm h
    unfold run_calls at h
    cases hc : apply_call m c with
    | none =>
      rw [hc] at h
      cases h
    | some m2 =>
      rw [hc] at h
      refine ih m2 m1 ?_ h
      cases c with
      | emplace_replace hash ptr =>
        simp only [apply_call] at hc
        split at hc
        · rename_i hpre
          split at hc
          · rename_i e m3 heq
            simp only [Option.some.injEq] at hc
            exact hc ▸ Reachable.step_emplace_replace _ hash ptr hm hpre.1 hpre.2 heq
          · cases hc
        · cases hc
      | emplace_yield hash ptr =>
        simp only [apply_call] at hc
        split at hc
        · rename_i hpre
          split at hc
          · rename_i e m3 heq
            simp only [Option.some.injEq] at hc
            exact hc ▸ Reachable.step_emplace_yield _ hash ptr hm hpre.1 hpre.2 heq
          · cases hc
        · cases hc
      | erase e =>
        simp only [apply_call] at hc
        split at hc
        · rename_i hin
          exact Reachable.step_erase hm hin hc
        · cases hc
      | clear =>
        simp only [apply_call, Option.some.injEq] at hc
        exact hc ▸ Reachable.step_clear hm

theorem run_stale : run_calls empty stale_calls = some stale_map := by decide

/-- C19 (defect of `grow`, the one behind C1).  The claim: the elements allocated and not
freed, the elements of the list and the elements in the slots are the same, so no freed
element stays reachable.  The code at the client program `emplace_replace` with keys
`0, 32, 64, 96, 1, 2, 16` followed by `erase` of the element returned for key `0`: the
growth put that element outside its window, the probe of the holder's `erase` does not
meet it and changes nothing, and the owning map frees it all the same; the freed element
is still in the list and in a slot. -/
theorem freed_element_stays_in_table :
    run_calls empty stale_calls = some stale_map ∧
    Reachable stale_map ∧
    (Elem.mk 1000 0) ∈ stale_map.hashmap.list ∧
    some (Elem.mk 1000 0) ∈ stale_map.hashmap.values ∧
    1000 ∉ stale_map.pool.live :=
  ⟨run_stale, reachable_run_map_calls _ _ _ Reachable.init run_stale, by decide, by decide,
    by decide⟩

/-! ### What stays allocated after `clear()` -/

/-- The pool and the list after the owning map's `insert_replace`: nothing new is
allocated, an element of the old list whose object is still allocated is still in the
list, and if the inserted object is still allocated it is in the list. -/
theorem insert_replace_live {m m1 : IntrusiveHashMap} {e : Elem} {fuel hash ptr : Nat}
    (hinv : m.hashmap.Inv) (h : insert_replace fuel m hash ptr = some (e, m1)) :
    m1.hashmap.Inv ∧
    (∀ q ∈ m1.pool.live, q ∈ m.pool.live) ∧
    (∀ q ∈ m1.pool.live, ∀ x ∈ m.hashmap.list, x.ptr = q → x ∈ m1.hashmap.list) ∧
    (ptr ∈ m1.pool.live → ∃ x ∈ m1.hashmap.list, x.ptr = ptr) := by
  unfold insert_replace at h
  simp only at h
  split at h
  · rename_i r s1 hins
    simp only [Option.some.injEq, Prod.mk.injEq] at h
    obtain ⟨_, rfl⟩ := h
    refine ⟨(IntrusiveHashMapHolder.insert_replace_inv hinv hins).1, ?_, ?_, ?_⟩
    · intro q hq
      cases r with
      | none => exact hq
      | some v => exact ((mem_free_live _ _ _).mp hq).1
    · intro q hq x hx hxq
      rcases IntrusiveHashMapHolder.insert_replace_list_cases hinv hins with
        ⟨_, hl⟩ | ⟨v, hr, hl⟩
      · show x ∈ s1.list
        rw [hl]
        exact List.mem_cons_of_mem _ hx
      · subst hr
        have hne : x ≠ v := by
          rintro rfl
          exact ((mem_free_live _ _ _).mp hq).2 hxq
        show x ∈ s1.list
        rw [hl]
        exact List.mem_cons_of_mem _ ((List.mem_erase_of_ne hne).mpr hx)
    · intro _
      refine ⟨{ ptr := ptr, key := hash }, ?_, rfl⟩
      show _ ∈ s1.list
      rcases IntrusiveHashMapHolder.insert_replace_list_cases hinv hins with
        ⟨_, hl⟩ | ⟨v, _, hl⟩
      · rw [hl]
        exact List.mem_cons_self _ _
      · rw [hl]
        exact List.mem_cons_self _ _
  · cases h

/-- The pool and the list after the owning map's `insert_yield`, as for
`insert_replace`. -/
theorem insert_yield_live {m m1 : IntrusiveHashMap} {e : Elem} {fuel hash ptr : Nat}
    (hinv : m.hashmap.Inv) (h : insert_yield fuel m hash ptr = some (e, m1)) :
    m1.hashmap.Inv ∧
    (∀ q ∈ m1.pool.live, q ∈ m.pool.live) ∧
    (∀ q ∈ m1.pool.live, ∀ x ∈ m.hashmap.list, x.ptr = q → x ∈ m1.hashmap.list) ∧
    (ptr ∈ m1.pool.live → ∃ x ∈ m1.hashmap.list, x.ptr = ptr) := by
  unfold insert_yield at h
  simp only at h
  split at h
  · rename_i r hins
    simp only [Option.some.injEq, Prod.mk.injEq] at h
    obtain ⟨_, rfl⟩ := h
    refine ⟨IntrusiveHashMapHolder.insert_yield_inv hinv hins, ?_, ?_, ?_⟩
    · intro q hq
      rcases IntrusiveHashMapHolder.insert_yield_list_cases hinv hins with
        ⟨hr, _⟩ | ⟨hr, _⟩
      · simp only [hr, free_to_delete] at hq
        exact hq
      · simp only [hr, free_to_delete] at hq
        exact ((mem_free_live _ _ _).mp hq).1
    · intro q _ x hx _
      show x ∈ r.state.list
      rcases IntrusiveHashMapHolder.insert_yield_list_cases hinv hins with
        ⟨_, hl⟩ | ⟨_, hl⟩
      · rw [hl]
        exact List.mem_cons_of_mem _ hx
      · rw [hl]
        exact hx
    · intro hq
      rcases IntrusiveHashMapHolder.insert_yield_list_cases hinv hins with
        ⟨_, hl⟩ | ⟨hr, _⟩
      · refine ⟨{ ptr := ptr, key := hash }, ?_, rfl⟩
        show _ ∈ r.state.list
        rw [hl]
        exact List.mem_cons_self _ _
      · simp only [hr, free_to_delete] at hq
        exact absurd rfl ((mem_free_live _ _ _).mp hq).2
  · cases h

/-- In every reachable state of the owning map the holder satisfies its invariant, and
every allocated object is pending or is an element of the list. -/
theorem ReachablePending.live_cases {m : IntrusiveHashMap} {pending : List Nat}
    (h : ReachablePending m pending) :
    m.hashmap.Inv ∧
    ∀ q ∈ m.pool.live, q ∈ pending ∨ ∃ x ∈ m.hashmap.list, x.ptr = q := by
  induction h with
  | init =>
    refine ⟨IntrusiveHashMapHolder.inv_empty, ?_⟩
    intro q hq
    simp [empty] at hq
  | step_allocate ptr _ _ ih =>
    refine ⟨ih.1, ?_⟩
    intro q hq
    simp only [allocate, ObjectPool.allocate, List.mem_cons] at hq
    rcases hq with rfl | hq
    · exact Or.inl (List.mem_cons_self _ _)
    · rcases ih.2 q hq with hp | hx
      · exact Or.inl (List.mem_cons_of_mem _ hp)
      · exact Or.inr hx
  | step_free ptr _ _ _ ih =>
    refine ⟨ih.1, ?_⟩
    intro q hq
    obtain ⟨hq1, hq2⟩ := (mem_free_live _ _ _).mp hq
    rcases ih.2 q hq1 with hp | hx
    · exact Or.inl (List.mem_filter.mpr ⟨hp, by simpa using fun hc => hq2 hc.symm⟩)
    · exact Or.inr hx
  | step_insert_replace fuel hash ptr _ _ _ hstep ih =>
    obtain ⟨h1, h2, h3, h4⟩ := insert_replace_live ih.1 hstep
    refine ⟨h1, ?_⟩
    intro q hq
    rcases ih.2 q (h2 q hq) with hp | ⟨x, hx, hxq⟩
    · by_cases hqp : q = ptr
      · subst hqp
        exact Or.inr (h4 hq)
      · exact Or.inl (List.mem_filter.mpr ⟨hp, by simpa using hqp⟩)
    · exact Or.inr ⟨x, h3 q hq x hx hxq, hxq⟩
  | step_insert_yield fuel hash ptr _ _ _ hstep ih =>
    obtain ⟨h1, h2, h3, h4⟩ := insert_yield_live ih.1 hstep
    refine ⟨h1, ?_⟩
    intro q hq
    rcases ih.2 q (h2 q hq) with hp | ⟨x, hx, hxq⟩
    · by_cases hqp : q = ptr
      · subst hqp
        exact Or.inr (h4 hq)
      · exact Or.inl (List.mem_filter.mpr ⟨hp, by simpa using hqp⟩)
    · exact Or.inr ⟨x, h3 q hq x hx hxq, hxq⟩
  | @step_emplace_replace m m1 pending e fuel hash ptr _ _ _ hstep ih =>
    have hinv : (m.allocate ptr).hashmap.Inv := ih.1
    obtain ⟨h1, h2, h3, h4⟩ := insert_replace_live hinv hstep
    refine ⟨h1, ?_⟩
    intro q hq
    have hq0 := h2 q hq
    simp only [allocate, ObjectPool.allocate, List.mem_cons] at hq0
    rcases hq0 with rfl | hq0
    · exact Or.inr (h4 hq)
    · rcases ih.2 q hq0 with hp | ⟨x, hx, hxq⟩
      · exact Or.inl hp
      · exact Or.inr ⟨x, h3 q hq x hx hxq, hxq⟩
  | @step_emplace_yield m m1 pending e fuel hash ptr _ _ _ hstep ih =>
    have hinv : (m.allocate ptr).hashmap.Inv := ih.1
    obtain ⟨h1, h2, h3, h4⟩ := insert_yield_live hinv hstep
    refine ⟨h1, ?_⟩
    intro q hq
    have hq0 := h2 q hq
    simp only [allocate, ObjectPool.allocate, List.mem_cons] at hq0
    rcases hq0 with rfl | hq0
    · exact Or.inr (h4 hq)
    · rcases ih.2 q hq0 with hp | ⟨x, hx, hxq⟩
      · exact Or.inl hp
      · exact Or.inr ⟨x, h3 q hq x hx hxq, hxq⟩
  | @step_erase m m1 pending e _ _ hstep ih =>
    unfold erase at hstep
    split at hstep
    · rename_i s1 hers
      simp only [Option.some.injEq] at hstep
      subst hstep
      refine ⟨IntrusiveHashMapHolder.erase_inv ih.1 hers, ?_⟩
      intro q hq
      obtain ⟨hq1, hq2⟩ := (mem_free_live _ _ _).mp hq
      rcases ih.2 q hq1 with hp | ⟨x, hx, hxq⟩
      · exact Or.inl hp
      · refine Or.inr ⟨x, ?_, hxq⟩
        show x ∈ s1.list
        rcases IntrusiveHashMapHolder.erase_loop_some _ _ hers with rfl | ⟨p, _, _, rfl⟩
        · exact hx
        · have hne : x ≠ e := by
            rintro rfl
            exact hq2 hxq
          exact (List.mem_erase_of_ne hne).mpr hx
    · cases hstep
  | step_clear _ ih =>
    refine ⟨IntrusiveHashMapHolder.inv_empty, ?_⟩
    intro q hq
    obtain ⟨hq1, hq2⟩ := (mem_free_all_live _ _ _).mp hq
    rcases ih.2 q hq1 with hp | ⟨x, hx, hxq⟩
    · exact Or.inl hp
    · exact absurd hxq (hq2 x hx)

/-- The states with pending addresses are the reachable states. -/
theorem ReachablePending.to_reachable {m : IntrusiveHashMap} {pending : List Nat}
    (h : ReachablePending m pending) : Reachable m := by
  induction h with
  | init => exact Reachable.init
  | step_allocate ptr _ h1 ih => exact Reachable.step_allocate ptr ih h1
  | step_free ptr _ h1 h2 ih => exact Reachable.step_free ptr ih h1 h2
  | step_insert_replace fuel hash ptr _ h1 h2 h3 ih =>
    exact Reachable.step_insert_replace fuel hash ptr ih h1 h2 h3
  | step_insert_yield fuel hash ptr _ h1 h2 h3 ih =>
    exact Reachable.step_insert_yield fuel hash ptr ih h1 h2 h3
  | step_emplace_replace fuel hash ptr _ h1 h2 h3 ih =>
    exact Reachable.step_emplace_replace fuel hash ptr ih h1 h2 h3
  | step_emplace_yield fuel hash ptr _ h1 h2 h3 ih =>
    exact Reachable.step_emplace_yield fuel hash ptr ih h1 h2 h3
  | step_erase _ h1 h2 ih => exact Reachable.step_erase ih h1 h2
  | step_clear _ ih => exact Reachable.step_clear ih

/-- Every reachable state has its pending addresses. -/
theorem Reachable.exists_pending {m : IntrusiveHashMap} (h : Reachable m) :
    ∃ pending, ReachablePending m pending := by
  induction h with
  | init => exact ⟨[], ReachablePending.init⟩
  | step_allocate ptr _ h1 ih =>
    obtain ⟨p, hp⟩ := ih
    exact ⟨_, ReachablePending.step_allocate ptr hp h1⟩
  | step_free ptr _ h1 h2 ih =>
    obtain ⟨p, hp⟩ := ih
    exact ⟨_, ReachablePending.step_free ptr hp h1 h2⟩
  | step_insert_replace fuel hash ptr _ h1 h2 h3 ih =>
    obtain ⟨p, hp⟩ := ih
    exact ⟨_, ReachablePending.step_insert_replace fuel hash ptr hp h1 h2 h3⟩
  | step_insert_yield fuel hash ptr _ h1 h2 h3 ih =>
    obtain ⟨p, hp⟩ := ih
    exact ⟨_, ReachablePending.step_insert_yield fuel hash ptr hp h1 h2 h3⟩
  | step_emplace_replace fuel hash ptr _ h1 h2 h3 ih =>
    obtain ⟨p, hp⟩ := ih
    exact ⟨_, ReachablePending.step_emplace_replace fuel hash ptr hp h1 h2 h3⟩
  | step_emplace_yield fuel hash ptr _ h1 h2 h3 ih =>
    obtain ⟨p, hp⟩ := ih
    exact ⟨_, ReachablePending.step_emplace_yield fuel hash ptr hp h1 h2 h3⟩
  | step_erase _ h1 h2 ih =>
    obtain ⟨p, hp⟩ := ih
    exact ⟨_, ReachablePending.step_erase hp h1 h2⟩
  | step_clear _ ih =>
    obtain ⟨p, hp⟩ := ih
    exact ⟨_, ReachablePending.step_clear hp⟩

/-- A client program of `emplace_replace`, `emplace_yield`, `erase` and `clear` leaves the
pending addresses as they are. -/
theorem reachable_pending_run_calls : ∀ (cs : List Call) (m m1 : IntrusiveHashMap)
    (pending : List Nat), ReachablePending m pending → run_calls m cs = some m1 →
    ReachablePending m1 pending := by
  intro cs
  induction cs with
  | nil =>
    intro m m1 pending hm h
    simp only [run_calls, Option.some.injEq] at h
    exact h ▸ hm
  | cons c cs ih =>
    intro m m1 pending hm h
    unfold run_calls at h
    cases hc : apply_call m c with
    | none =>
      rw [hc] at h
      cases h
    | some m2 =>
      rw [hc] at h
      refine ih m2 m1 pending ?_ h
      cases c with
      | emplace_replace hash ptr =>
        simp only [apply_call] at hc
        split at hc
        · rename_i hpre
          split at hc
          · rename_i e m3 heq
            simp only [Option.some.injEq] at hc
            exact hc ▸ ReachablePending.step_emplace_replace _ hash ptr hm hpre.1 hpre.2 heq
          · cases hc
        · cases hc
      | emplace_yield hash ptr =>
        simp only [apply_call] at hc
        split at hc
        · rename_i hpre
          split at hc
          · rename_i e m3 heq
            simp only [Option.some.injEq] at hc
            exact hc ▸ ReachablePending.step_emplace_yield _ hash ptr hm hpre.1 hpre.2 heq
          · cases hc
        · cases hc
      | erase e =>
        simp only [apply_call] at hc
        split at hc
        · rename_i hin
          exact ReachablePending.step_erase hm hin hc
        · cases hc
      | clear =>
        simp only [apply_call, Option.some.injEq] at hc
        exact hc ▸ ReachablePending.step_clear hm

/-- After a client program of `emplace_replace`, `emplace_yield`, `erase` and `clear` on
the default-constructed owning map, `clear()` leaves nothing allocated. -/
theorem clear_after_emplace_program (cs : List Call) (m : IntrusiveHashMap)
    (h : run_calls empty cs = some m) : (clear m).pool.live = [] := by
  have hp := (reachable_pending_run_calls cs empty m [] ReachablePending.init h).step_clear
  apply List.eq_nil_iff_forall_not_mem.mpr
  intro q hq
  rcases hp.live_cases.2 q hq with hq1 | ⟨x, hx, _⟩
  · simp at hq1
  · simp [clear, IntrusiveHashMapHolder.clear] at hx

end IntrusiveHashMap

end Util
